import Mathlib

/-!
MyBinarySearchTree: a shallow embedding of `bintree.cpp` / `nodedata.cpp`

The C++ classes `NodeData` and `BinTree` are embedded as pure Lean functions.

* A `Node*` is a value of the inductive type `Node`; the null pointer is `Node.nil`.
  Every node that a tree holds between two calls carries a payload; the only nodes
  with a null `data` pointer are the ones `arrayToBSTree` has just allocated, whose
  `data` is overwritten before anything reads it.
* A `Node*&` parameter that a function edits in place becomes an argument and a
  returned subtree, which the caller stores back into its link.
* A `NodeData*` that may be null (a buffer slot, `insert`'s argument, `retrieve`'s
  output parameter) is an `Option NodeData`.
* An output stream is the text written to it so far, a `String`; `std::cout` is such
  a text too, passed in and returned by the functions that write to it.
* `int` values never leave the range in which `Int` and `Nat` arithmetic agree with
  the machine's: indices stay within `-1..100` and depths within the node count.
-/

set_option autoImplicit false

/-! ## nodedata.cpp -/

/-- The class `NodeData`: one `std::string` member called `data`. -/
structure NodeData where
  data : String
  deriving DecidableEq, Repr

namespace NodeData

/-- Source `NodeData::operator==`: `data == rhs.data`. -/
def eq (a rhs : NodeData) : Bool := a.data == rhs.data

/-- Source `NodeData::operator!=`: `data != rhs.data`. -/
def ne (a rhs : NodeData) : Bool := a.data != rhs.data

/-- Source `NodeData::operator<`: `data < rhs.data`, the lexicographic order of `std::string`. -/
def lt (a rhs : NodeData) : Bool := decide (a.data < rhs.data)

/-- Source `NodeData::operator>`: `data > rhs.data`. -/
def gt (a rhs : NodeData) : Bool := decide (a.data > rhs.data)

/-- Source `NodeData::operator<=`: `data <= rhs.data`. -/
def le (a rhs : NodeData) : Bool := decide (a.data ≤ rhs.data)

/-- Source `NodeData::operator>=`: `data >= rhs.data`. -/
def ge (a rhs : NodeData) : Bool := decide (a.data ≥ rhs.data)

/-- Source `operator<<(ostream&, const NodeData&)`: `output << nd.data`. -/
def print (output : String) (nd : NodeData) : String := output ++ nd.data

end NodeData

/-! ## bintree.h: the data model -/

/-- The struct `BinTree::Node` behind a `Node*`: `nil` is `nullptr`, `node data left right`
is a pointer to a node with that payload and those two links. -/
inductive Node where
  | nil : Node
  | node (data : NodeData) (left right : Node) : Node
  deriving DecidableEq, Repr

/-- The class `BinTree`: its only member is `Node* root`. -/
structure BinTree where
  root : Node
  deriving DecidableEq, Repr

/-- A `NodeData* arr[]` buffer: each slot is a payload or `nullptr`. The driver
allocates `ARRAYSIZE = 100` slots. -/
abbrev Buffer := List (Option NodeData)

/-- Source `ARRAYSIZE` of driver.cpp, also the literal `100` of `findHi`. -/
def ARRAYSIZE : Nat := 100

namespace Node

/-- Source `BinTree::inorderHelper(Node* n, ostream& out)`: left subtree, then
`out << *n->data << " "`, then right subtree. -/
def inorderHelper : Node → String → String
  | nil, out => out
  | node data left right, out =>
    let out := inorderHelper left out
    let out := (NodeData.print out data) ++ " "
    inorderHelper right out

/-- The sequence of payloads that the left, node, right visit of `inorderHelper`
and of `bstreeToArray` meets, in visiting order. -/
def inorderSeq : Node → List NodeData
  | nil => []
  | node data left right => inorderSeq left ++ data :: inorderSeq right

/-- Source `BinTree::pluck(Node*& n, const bool& keepND)`: releases the left subtree, the
right subtree, the payload unless `keepND`, and the node, and sets the link to
`nullptr`. The result is the new value of the link. -/
def pluck : Node → Bool → Node
  | nil, _ => nil
  | node _ left right, keepND =>
    let _left := pluck left keepND
    let _right := pluck right keepND
    nil

/-- Source `BinTree::copySubtree(Node*& lhs, Node* rhs)`; the result is the new `lhs`. -/
def copySubtree : Node → Node → Node
  | lhs, nil => pluck lhs false
  | nil, node data left right =>
    node data (copySubtree nil left) (copySubtree nil right)
  | node _ lleft lright, node data left right =>
    node data (copySubtree lleft left) (copySubtree lright right)

/-- Source `BinTree::checkEqual(const Node* n, const Node* rhs)`. -/
def checkEqual : Node → Node → Bool
  | nil, nil => true
  | nil, node _ _ _ => false
  | node _ _ _, nil => false
  | node data left right, node rdata rleft rright =>
    checkEqual left rleft && checkEqual right rright && NodeData.eq data rdata

/-- Source `BinTree::insert(NodeData* nd, Node*& n)`: the returned pair is the `bool`
result and the new value of the link `n`. -/
def insert (nd : NodeData) : Node → Bool × Node
  | nil => (true, node nd nil nil)
  | node data left right =>
    if NodeData.eq nd data then (false, node data left right)
    else if NodeData.lt nd data then
      let res := insert nd left
      (res.1, node data res.2 right)
    else
      let res := insert nd right
      (res.1, node data left res.2)

/-- Source `BinTree::retrieve(const Node* n, const NodeData& target, NodeData*& ret)`: the
returned pair is the `bool` result and the value left in `ret`. -/
def retrieve : Node → NodeData → Option NodeData → Bool × Option NodeData
  | nil, _, _ => (false, none)
  | node data left right, target, ret =>
    if NodeData.eq target data then (true, some data)
    else if NodeData.lt target data then retrieve left target ret
    else retrieve right target ret

end Node

namespace Node

/-- Source `BinTree::getDepth(const Node* n, const NodeData& target)`. The source has no
`return` after the second `if (depth > 0)`: `none` stands for control reaching the
closing brace of this non-void function, after which the value the caller reads is
undefined; a caller that reads such a value is itself undefined. -/
def getDepth : Node → NodeData → Option Int
  | nil, _ => some 0
  | node data left right, target =>
    if NodeData.eq target data then some 1
    else
      match getDepth left target with
      | none => none
      | some depth =>
        if depth > 0 then some (depth + 1)
        else
          match getDepth right target with
          | none => none
          | some depth => if depth > 0 then some (depth + 1) else none

/-- Source `BinTree::bstreeToArray(Node* n, NodeData* arr[], int& i)`: the returned pair is
the buffer and the index `i` after the call. `arr[i++] = n->data` writes slot `i`;
a write past the last slot of the buffer is outside what this model describes. -/
def bstreeToArray : Node → Buffer → Nat → Buffer × Nat
  | nil, arr, i => (arr, i)
  | node data left right, arr, i =>
    let res := bstreeToArray left arr i
    let arr := res.1.set res.2 (some data)
    let i := res.2 + 1
    bstreeToArray right arr i

/-- The `for` loop of `BinTree::findHi`, entered with loop variable `i`:
`for (; i < 100; i++) if (i+1 == 100 || arr[i+1] == nullptr) break;` and the value
of `i` when the loop is left. -/
def findHiLoop (arr : Buffer) (i : Nat) : Nat :=
  if i < 100 then
    if i + 1 = 100 ∨ arr.getD (i + 1) none = none then i
    else findHiLoop arr (i + 1)
  else i
termination_by 100 - i

/-- Source `BinTree::findHi(NodeData* arr[])`. -/
def findHi (arr : Buffer) : Int := (findHiLoop arr 0 : Nat)

/-- The link `n->left` of the node `arrayToBSTree` works on; for the node it has just
been given by `new Node()`, read as `nil`, the link is null. -/
def leftLink : Node → Node
  | nil => nil
  | node _ left _ => left

/-- The link `n->right` of the node `arrayToBSTree` works on; for the node it has just
been given by `new Node()`, read as `nil`, the link is null. -/
def rightLink : Node → Node
  | nil => nil
  | node _ _ right => right

/-- Source `BinTree::arrayToBSTree(NodeData* arr[], Node*& n, int lo, int hi)`: the result
is the new value of the link `n` and the buffer after the call.

Every call site stores `new Node()` into a null link right before the call exactly
when the range is non-empty (`mid - 1 >= lo`, `mid + 1 <= hi`, and `hi - lo > 0` at
the root), and a node so allocated has two null links and a `data` pointer that the
callee overwrites without reading. So a `nil` link with `lo <= hi` is read here as
that fresh node. `none`: the slot `arr[mid]` is `nullptr`, so the node would be left
without a payload, which the type `Node` excludes. -/
def arrayToBSTree (arr : Buffer) (n : Node) (lo hi : Int) : Option (Node × Buffer) :=
  let mid := lo + (hi - lo).tdiv 2
  if hi < lo ∨ lo > hi then
    some (pluck n false, arr)
  else
    let left := if mid = lo ∧ mid = hi then pluck n.leftLink false
      else if mid = lo then pluck n.leftLink false else n.leftLink
    let right := if mid = lo ∧ mid = hi then pluck n.rightLink false else n.rightLink
    match arr.getD mid.toNat none with
    | none => none
    | some data =>
      let arr := arr.set mid.toNat none
      match arrayToBSTree arr left lo (mid - 1) with
      | none => none
      | some (left, arr) =>
        match arrayToBSTree arr right (mid + 1) hi with
        | none => none
        | some (right, arr) => some (node data left right, arr)
termination_by (hi - lo + 1).toNat
decreasing_by
  all_goals simp_wf
  all_goals
    have hm : (hi - lo).tdiv 2 = (hi - lo) / 2 :=
      Int.tdiv_eq_ediv (by omega) (by omega)
    omega

/-- The indentation loop of `BinTree::sideways`,
`for (int i = level; i >= 0; i--) cout << "    ";`, entered with loop variable `i >= 0`. -/
def sidewaysIndent : Nat → String → String
  | 0, cout => cout ++ "    "
  | i + 1, cout => sidewaysIndent i (cout ++ "    ")

/-- Source `BinTree::sideways(Node* current, int level)`; the `String` is the text on `cout`. -/
def sideways : Node → Nat → String → String
  | nil, _, cout => cout
  | node data left right, level, cout =>
    let level := level + 1
    let cout := sideways right level cout
    let cout := sidewaysIndent level cout
    let cout := (NodeData.print cout data) ++ "\n"
    sideways left level cout

end Node

/-! ## bintree.cpp: the public interface -/

/-- The `BinTree` objects alive in a program, by address. `operator=` compares the
addresses of its two operands, so it is embedded over such a store. -/
abbrev Store := Nat → BinTree

/-- The output sinks of a program, by address, each with the text written to it so
far. `operator<<` names `cout` whatever sink it is handed, so it is embedded over
such a family of sinks. -/
abbrev Sinks := Nat → String

/-- The address of `std::cout` among the sinks. -/
def coutAddr : Nat := 0

namespace BinTree

/-- Source `BinTree::BinTree(Node* root = nullptr)` with the default argument: the empty tree. -/
def empty : BinTree := ⟨Node.nil⟩

/-- Source `BinTree::isEmpty()`: `root == nullptr`. -/
def isEmpty (t : BinTree) : Bool :=
  match t.root with
  | Node.nil => true
  | Node.node _ _ _ => false

/-- Source `BinTree::makeEmpty(const bool& keep)`: `pluck(root, keep)`. -/
def makeEmpty (t : BinTree) (keep : Bool) : BinTree := ⟨Node.pluck t.root keep⟩

/-- Source `BinTree::inorder(ostream& out)`. -/
def inorder (t : BinTree) (out : String) : String := Node.inorderHelper t.root out

/-- Source `BinTree::operator=(const BinTree& rhs)` run on the object at address `self`
with the object at address `rhs` as operand; `this != &rhs` compares the addresses. -/
def operatorAssign (s : Store) (self rhs : Nat) : Store :=
  if self ≠ rhs then
    Function.update s self ⟨Node.copySubtree (s self).root (s rhs).root⟩
  else s

/-- Source `BinTree::BinTree(const BinTree& rhs)`: the new object starts with the default
member initializer `root = nullptr` and then runs `*this = rhs`; being new, it is
not the object `rhs`. The result is the constructed tree. -/
def copyConstructor (rhs : BinTree) : BinTree :=
  operatorAssign (fun a => if a = 0 then ⟨Node.nil⟩ else rhs) 0 1 0

/-- Source `BinTree::operator==`. -/
def operatorEq (t rhs : BinTree) : Bool := Node.checkEqual t.root rhs.root

/-- Source `BinTree::operator!=`. -/
def operatorNe (t rhs : BinTree) : Bool := !(operatorEq t rhs)

/-- Source `BinTree::insert(NodeData* nd)`: the `bool` result and the tree after the call. -/
def insert (t : BinTree) (nd : Option NodeData) : Bool × BinTree :=
  match nd with
  | none => (false, t)
  | some nd =>
    let res := Node.insert nd t.root
    (res.1, ⟨res.2⟩)

/-- Source `BinTree::retrieve(const NodeData& target, NodeData*& ret)`: the `bool` result
and the value left in `ret`, whose value before the call is the third argument. -/
def retrieve (t : BinTree) (target : NodeData) (ret : Option NodeData) :
    Bool × Option NodeData :=
  if t.isEmpty then (false, ret)
  else
    let ret := (Node.retrieve t.root target ret).2
    (ret.isSome, ret)

/-- Source `BinTree::getDepth(const NodeData& target)`. -/
def getDepth (t : BinTree) (target : NodeData) : Option Int :=
  Node.getDepth t.root target

/-- Source `BinTree::bstreeToArray(NodeData* arr[])`: the tree and the buffer after the call. -/
def bstreeToArray (t : BinTree) (arr : Buffer) : BinTree × Buffer :=
  let i : Nat := 0
  let res := Node.bstreeToArray t.root arr i
  (makeEmpty t true, res.1)

/-- The text `arrayToBSTree` writes to `cout` when it gives up. -/
def arrayEmptyNotice : String := "! -- Array is empty. Can't convert! -- !\n"

/-- Source `BinTree::arrayToBSTree(NodeData* arr[])`: the tree, the buffer and the text
on `cout` after the call; `none` as for `Node.arrayToBSTree`. -/
def arrayToBSTree (t : BinTree) (arr : Buffer) (cout : String) :
    Option (BinTree × Buffer × String) :=
  let lo : Int := 0
  let hi : Int := Node.findHi arr
  if hi - lo ≤ 0 then
    some (t, arr, cout ++ arrayEmptyNotice)
  else
    match Node.arrayToBSTree arr t.root lo hi with
    | none => none
    | some (root, arr) => some (⟨root⟩, arr, cout)

/-- The text `operator<<` writes for an empty tree. -/
def treeEmptyNotice : String := "! -- tree is empty -- !\n"

/-- Source `operator<<(ostream& out, const BinTree& bt)` run on the sink at address `out`:
the sinks after the call. -/
def operatorShl (sinks : Sinks) (out : Nat) (bt : BinTree) : Sinks :=
  if bt.isEmpty then
    Function.update sinks coutAddr (sinks coutAddr ++ treeEmptyNotice)
  else
    let text := bt.inorder (sinks out)
    Function.update sinks out (text ++ "\n")

/-- The text `displaySideways` writes for an empty tree. -/
def sidewaysEmptyNotice : String := "! -- cannot display empty tree -- !\n"

/-- Source `BinTree::displaySideways()`: the text on `cout` after the call. -/
def displaySideways (t : BinTree) (cout : String) : String :=
  let cout := if t.isEmpty then cout ++ sidewaysEmptyNotice else cout
  Node.sideways t.root 0 cout

end BinTree

/-! ## driver.cpp -/

/-- The loop of `buildTree` in driver.cpp on the tokens read before `$$`: each
token becomes a `new NodeData(s)` handed to `T.insert`, which is deleted again when
`insert` reports a duplicate. The result is the tree `T` after the loop. -/
def buildTree (T : BinTree) : List String → BinTree
  | [] => T
  | s :: rest =>
    let ptr : Option NodeData := some ⟨s⟩
    let res := T.insert ptr
    buildTree res.2 rest

/-- Source `initArray` of driver.cpp: `ARRAYSIZE` slots, all `nullptr`. -/
def initArray : Buffer := List.replicate ARRAYSIZE none

/-! ## Vocabulary of the specification -/

namespace Node

/-- The BST invariant of the specification: at every node, the payloads of the left
subtree are all less than the node's payload and the payloads of the right subtree
are all greater. -/
def isBST : Node → Bool
  | nil => true
  | node data left right =>
    left.inorderSeq.all (fun x => NodeData.lt x data) &&
    right.inorderSeq.all (fun x => NodeData.gt x data) &&
    isBST left && isBST right

/-- Number of nodes of a tree. -/
def size : Node → Nat
  | nil => 0
  | node _ left right => size left + 1 + size right

/-- The payload at a position of a tree, if a node stands there. A position is the
path from the root: `false` descends to the left child, `true` to the right child.
`none` says that no node is present at the position. -/
def payloadAt : Node → List Bool → Option NodeData
  | nil, _ => none
  | node data _ _, [] => some data
  | node _ left right, goRight :: rest =>
    if goRight then payloadAt right rest else payloadAt left rest

/-- The depth the specification asks of `getDepth`: 1 when the node itself matches,
otherwise one more than the depth found in the left subtree, otherwise one more than
the depth found in the right subtree, and 0 when no node matches. -/
def firstMatchDepth : Node → NodeData → Int
  | nil, _ => 0
  | node data left right, target =>
    if NodeData.eq target data then 1
    else if firstMatchDepth left target > 0 then firstMatchDepth left target + 1
    else if firstMatchDepth right target > 0 then firstMatchDepth right target + 1
    else 0

/-- The balanced tree the specification describes for the index range `lo..hi` of a
run of payloads `slot`: empty when `hi < lo`, otherwise the node holding slot
`mid = lo + (hi - lo) / 2` with left subtree `build lo (mid - 1)` and right subtree
`build (mid + 1) hi`. -/
def build (slot : Int → NodeData) (lo hi : Int) : Node :=
  if hi < lo then nil
  else
    node (slot (lo + (hi - lo) / 2)) (build slot lo (lo + (hi - lo) / 2 - 1))
      (build slot (lo + (hi - lo) / 2 + 1) hi)
termination_by (hi - lo + 1).toNat
decreasing_by
  all_goals simp_wf
  all_goals omega

/-- Height of a tree: the number of nodes on the longest path from the root down to
a leaf; the empty tree has height 0. -/
def height : Node → Nat
  | nil => 0
  | node _ left right => max (height left) (height right) + 1

/-- Whether a link is null. -/
def isNil : Node → Bool
  | nil => true
  | node _ _ _ => false

/-- No node of the tree has a left child but no right child: a node with exactly
one child has it on the right. -/
def noLeftOnly : Node → Bool
  | nil => true
  | node _ left right =>
    (left.isNil || !right.isNil) && noLeftOnly left && noLeftOnly right

/-- The text of a sequence of payloads written the way `inorderHelper` writes each
one: the payload followed by one blank. -/
def renderSeq : List NodeData → String
  | [] => ""
  | d :: ds => d.data ++ " " ++ renderSeq ds

/-- Strictly ascending order of a sequence of payloads under `NodeData::operator<`. -/
def Ascending (l : List NodeData) : Prop :=
  l.Pairwise (fun a b => NodeData.lt a b = true)

instance (l : List NodeData) : Decidable (Ascending l) := by
  unfold Ascending
  infer_instance

end Node

/-- The text of `k` indentation steps of `sideways`: `k` times the four blanks the
loop writes per step. -/
def indentText : Nat → String
  | 0 => ""
  | k + 1 => "    " ++ indentText k

/-- The lines of the visit right subtree, node, left subtree of a tree, each line as
the pair of the depth of its node and the payload of its node; `depth` is the depth
of the root of the tree visited, 0 for the root of a whole tree. -/
def sidewaysLines : Node → Nat → List (Nat × NodeData)
  | Node.nil, _ => []
  | Node.node data left right, depth =>
    sidewaysLines right (depth + 1) ++ (depth, data) :: sidewaysLines left (depth + 1)

/-- The text of a list of lines when the line of a node at depth `d` is written as
`steps d` indentation steps, the payload and a line end. -/
def renderLines (steps : Nat → Nat) : List (Nat × NodeData) → String
  | [] => ""
  | line :: rest =>
    indentText (steps line.1) ++ line.2.data ++ "\n" ++ renderLines steps rest

/-- The payload held by slot `j` of a buffer; for a slot that holds none, the payload
that `NodeData()` constructs. -/
def slotPayload (arr : Buffer) (j : Int) : NodeData :=
  (arr.getD j.toNat none).getD ⟨""⟩

/-- The buffer of `ARRAYSIZE` slots whose first slots hold the payloads `xs`, in that
order, and whose remaining slots are `nullptr`. -/
def runBuffer (xs : List NodeData) : Buffer :=
  xs.map some ++ List.replicate (ARRAYSIZE - xs.length) none

/-! ## Facts about the payload comparisons -/

theorem NodeData.eq_iff (a b : NodeData) : NodeData.eq a b = true ↔ a = b := by
  cases a; cases b; simp [NodeData.eq]

theorem NodeData.eq_self (a : NodeData) : NodeData.eq a a = true :=
  (NodeData.eq_iff a a).2 rfl

theorem NodeData.lt_iff (a b : NodeData) : NodeData.lt a b = true ↔ a.data < b.data := by
  unfold NodeData.lt
  exact decide_eq_true_iff

theorem NodeData.gt_iff (a b : NodeData) : NodeData.gt a b = true ↔ b.data < a.data := by
  unfold NodeData.gt
  exact decide_eq_true_iff

theorem NodeData.lt_self (a : NodeData) : NodeData.lt a a = false := by
  have h : ¬ NodeData.lt a a = true := fun h => (lt_irrefl a.data) ((NodeData.lt_iff a a).1 h)
  simpa using h

theorem NodeData.lt_trans {a b c : NodeData} (hab : NodeData.lt a b = true)
    (hbc : NodeData.lt b c = true) : NodeData.lt a c = true := by
  rw [NodeData.lt_iff] at *
  exact hab.trans hbc

theorem NodeData.lt_of_not_lt_of_not_eq {a b : NodeData} (h1 : NodeData.eq a b = false)
    (h2 : NodeData.lt a b = false) : NodeData.lt b a = true := by
  rw [NodeData.lt_iff]
  have hne : a ≠ b := fun h => by
    rw [(NodeData.eq_iff a b).2 h] at h1
    exact Bool.noConfusion h1
  have hnlt : ¬ a.data < b.data := fun h => by
    rw [(NodeData.lt_iff a b).2 h] at h2
    exact Bool.noConfusion h2
  have hd : a.data ≠ b.data := fun h => hne (by cases a; cases b; simp_all)
  rcases lt_trichotomy a.data b.data with h | h | h
  · exact absurd h hnlt
  · exact absurd h hd
  · exact h

/-! ## Facts about single operations -/

namespace Node

theorem pluck_eq_nil (n : Node) (keepND : Bool) : pluck n keepND = nil := by
  cases n <;> rfl

theorem isBST_node (data : NodeData) (left right : Node) :
    isBST (node data left right) = true ↔
      (∀ x ∈ left.inorderSeq, NodeData.lt x data = true) ∧
      (∀ x ∈ right.inorderSeq, NodeData.lt data x = true) ∧
      isBST left = true ∧ isBST right = true := by
  simp only [isBST, Bool.and_eq_true, List.all_eq_true, NodeData.gt_iff, NodeData.lt_iff]
  tauto

theorem mem_insert (nd x : NodeData) (n : Node) :
    x ∈ (insert nd n).2.inorderSeq ↔ x = nd ∨ x ∈ n.inorderSeq := by
  induction n with
  | nil => simp [insert, inorderSeq]
  | node data left right ihl ihr =>
    unfold insert
    by_cases h1 : NodeData.eq nd data = true
    · have : nd = data := (NodeData.eq_iff _ _).1 h1
      subst this
      simp only [h1, inorderSeq, if_true, List.mem_append, List.mem_cons]
      tauto
    · by_cases h2 : NodeData.lt nd data = true
      · simp only [h1, h2, inorderSeq, List.mem_append, List.mem_cons, ihl, if_true]
        tauto
      · simp only [h1, h2, inorderSeq, List.mem_append, List.mem_cons, ihr]
        tauto

theorem isBST_insert (nd : NodeData) (n : Node) (h : isBST n = true) :
    isBST (insert nd n).2 = true := by
  induction n with
  | nil => simp [insert, isBST, inorderSeq]
  | node data left right ihl ihr =>
    obtain ⟨hl, hr, bl, br⟩ := (isBST_node _ _ _).1 h
    unfold insert
    cases h1 : NodeData.eq nd data
    · cases h2 : NodeData.lt nd data
      · simp only [Bool.false_eq_true, if_false]
        refine (isBST_node _ _ _).2 ⟨hl, ?_, bl, ihr br⟩
        intro x hx
        rcases (mem_insert nd x right).1 hx with rfl | hx
        · exact NodeData.lt_of_not_lt_of_not_eq h1 h2
        · exact hr x hx
      · simp only [Bool.false_eq_true, if_false, if_true]
        refine (isBST_node _ _ _).2 ⟨?_, hr, ihl bl, br⟩
        intro x hx
        rcases (mem_insert nd x left).1 hx with rfl | hx
        · exact h2
        · exact hl x hx
    · simpa using h

theorem insert_unchanged (nd : NodeData) (n : Node) (h : (insert nd n).1 = false) :
    (insert nd n).2 = n := by
  induction n with
  | nil => simp [insert] at h
  | node data left right ihl ihr =>
    unfold insert at h ⊢
    cases h1 : NodeData.eq nd data
    · cases h2 : NodeData.lt nd data
      · simp only [h1, h2, Bool.false_eq_true, if_false] at h ⊢
        rw [ihr h]
      · simp only [h1, h2, Bool.false_eq_true, if_false, if_true] at h ⊢
        rw [ihl h]
    · simp

theorem insert_false_iff (nd : NodeData) (n : Node) (hb : isBST n = true) :
    (insert nd n).1 = false ↔ nd ∈ n.inorderSeq := by
  induction n with
  | nil => simp [insert, inorderSeq]
  | node data left right ihl ihr =>
    obtain ⟨hl, hr, bl, br⟩ := (isBST_node _ _ _).1 hb
    unfold insert
    cases h1 : NodeData.eq nd data
    · have hne : nd ≠ data := fun e => by
        rw [(NodeData.eq_iff _ _).2 e] at h1
        exact Bool.noConfusion h1
      cases h2 : NodeData.lt nd data
      · simp only [Bool.false_eq_true, if_false, inorderSeq, List.mem_append, List.mem_cons,
          ihr br]
        constructor
        · intro h; exact Or.inr (Or.inr h)
        · rintro (h | h | h)
          · rw [hl nd h] at h2
            exact Bool.noConfusion h2
          · exact absurd h hne
          · exact h
      · simp only [Bool.false_eq_true, if_false, if_true, inorderSeq, List.mem_append,
          List.mem_cons, ihl bl]
        constructor
        · intro h; exact Or.inl h
        · rintro (h | h | h)
          · exact h
          · exact absurd h hne
          · have := NodeData.lt_trans h2 (hr nd h)
            rw [NodeData.lt_self] at this
            exact Bool.noConfusion this
    · have : nd = data := (NodeData.eq_iff _ _).1 h1
      simp [inorderSeq, this]

end Node

namespace Node

theorem retrieve_of_not_mem (n : Node) (target : NodeData) (ret : Option NodeData)
    (h : target ∉ n.inorderSeq) : retrieve n target ret = (false, none) := by
  induction n with
  | nil => rfl
  | node data left right ihl ihr =>
    simp only [inorderSeq, List.mem_append, List.mem_cons, not_or] at h
    obtain ⟨hl, hd, hr⟩ := h
    have h1 : NodeData.eq target data = false := by
      cases e : NodeData.eq target data
      · rfl
      · exact absurd ((NodeData.eq_iff _ _).1 e) hd
    unfold retrieve
    cases h2 : NodeData.lt target data
    · simp only [h1, Bool.false_eq_true, if_false]
      exact ihr hr
    · simp only [h1, Bool.false_eq_true, if_false, if_true]
      exact ihl hl

theorem retrieve_of_mem (n : Node) (target : NodeData) (ret : Option NodeData)
    (hb : isBST n = true) (h : target ∈ n.inorderSeq) :
    retrieve n target ret = (true, some target) := by
  induction n with
  | nil => simp [inorderSeq] at h
  | node data left right ihl ihr =>
    obtain ⟨hl, hr, bl, br⟩ := (isBST_node _ _ _).1 hb
    unfold retrieve
    cases h1 : NodeData.eq target data
    · have hne : target ≠ data := fun e => by
        rw [(NodeData.eq_iff _ _).2 e] at h1
        exact Bool.noConfusion h1
      simp only [inorderSeq, List.mem_append, List.mem_cons] at h
      cases h2 : NodeData.lt target data
      · simp only [Bool.false_eq_true, if_false]
        rcases h with h | h | h
        · rw [hl target h] at h2
          exact Bool.noConfusion h2
        · exact absurd h hne
        · exact ihr br h
      · simp only [Bool.false_eq_true, if_false, if_true]
        rcases h with h | h | h
        · exact ihl bl h
        · exact absurd h hne
        · have := NodeData.lt_trans h2 (hr target h)
          rw [NodeData.lt_self] at this
          exact Bool.noConfusion this
    · have : target = data := (NodeData.eq_iff _ _).1 h1
      simp [this]

theorem ascending_inorderSeq (n : Node) (hb : isBST n = true) : Ascending n.inorderSeq := by
  induction n with
  | nil => simp [inorderSeq, Ascending]
  | node data left right ihl ihr =>
    obtain ⟨hl, hr, bl, br⟩ := (isBST_node _ _ _).1 hb
    unfold Ascending at *
    simp only [inorderSeq, List.pairwise_append, List.pairwise_cons, List.mem_cons]
    refine ⟨ihl bl, ⟨hr, ihr br⟩, ?_⟩
    rintro a ha b (rfl | hb')
    · exact hl a ha
    · exact NodeData.lt_trans (hl a ha) (hr b hb')

theorem renderSeq_append (l₁ l₂ : List NodeData) :
    renderSeq (l₁ ++ l₂) = renderSeq l₁ ++ renderSeq l₂ := by
  induction l₁ with
  | nil => simp [renderSeq]
  | cons d ds ih => simp [renderSeq, ih, String.append_assoc]

theorem inorderHelper_eq (n : Node) (out : String) :
    inorderHelper n out = out ++ renderSeq n.inorderSeq := by
  induction n generalizing out with
  | nil => simp [inorderHelper, inorderSeq, renderSeq]
  | node data left right ihl ihr =>
    simp only [inorderHelper, inorderSeq, ihl, ihr, NodeData.print, renderSeq_append,
      renderSeq, String.append_assoc]

end Node

/-! ## Facts about sequences of `insert` calls -/

theorem buildTree_isBST (T : BinTree) (xs : List String) (h : T.root.isBST = true) :
    (buildTree T xs).root.isBST = true := by
  induction xs generalizing T with
  | nil => exact h
  | cons s rest ih =>
    simp only [buildTree, BinTree.insert]
    exact ih _ (Node.isBST_insert _ _ h)

theorem mem_buildTree (T : BinTree) (xs : List String) (x : NodeData) :
    x ∈ (buildTree T xs).root.inorderSeq ↔ x ∈ T.root.inorderSeq ∨ x.data ∈ xs := by
  induction xs generalizing T with
  | nil => simp [buildTree]
  | cons s rest ih =>
    simp only [buildTree, BinTree.insert, ih, Node.mem_insert, List.mem_cons]
    have : x = ⟨s⟩ ↔ x.data = s := by
      cases x; simp
    rw [this]
    tauto

/-! ## Facts about copying and comparing -/

namespace Node

theorem checkEqual_iff_eq (a b : Node) : checkEqual a b = true ↔ a = b := by
  induction a generalizing b with
  | nil => cases b <;> simp [checkEqual]
  | node data left right ihl ihr =>
    cases b with
    | nil => simp [checkEqual]
    | node rdata rleft rright =>
      simp only [checkEqual, Bool.and_eq_true, ihl, ihr, NodeData.eq_iff, node.injEq]
      tauto

theorem checkEqual_self (a : Node) : checkEqual a a = true :=
  (checkEqual_iff_eq a a).2 rfl

theorem eq_iff_payloadAt (a b : Node) : a = b ↔ ∀ p, payloadAt a p = payloadAt b p := by
  constructor
  · rintro rfl p
    rfl
  · induction a generalizing b with
    | nil =>
      intro h
      cases b with
      | nil => rfl
      | node rdata rleft rright =>
        have := h []
        simp [payloadAt] at this
    | node data left right ihl ihr =>
      intro h
      cases b with
      | nil =>
        have := h []
        simp [payloadAt] at this
      | node rdata rleft rright =>
        have h0 := h []
        simp only [payloadAt, Option.some.injEq] at h0
        have hl : left = rleft := ihl rleft (fun p => by simpa [payloadAt] using h (false :: p))
        have hr : right = rright := ihr rright (fun p => by simpa [payloadAt] using h (true :: p))
        rw [h0, hl, hr]

theorem copySubtree_eq (lhs rhs : Node) : copySubtree lhs rhs = rhs := by
  induction rhs generalizing lhs with
  | nil => cases lhs <;> simp [copySubtree, pluck_eq_nil]
  | node data left right ihl ihr =>
    cases lhs <;> simp [copySubtree, ihl, ihr]

end Node

/-! ## Facts about the conversion to a buffer -/

namespace Node

theorem length_inorderSeq (n : Node) : n.inorderSeq.length = n.size := by
  induction n with
  | nil => rfl
  | node data left right ihl ihr => simp [inorderSeq, size, ihl, ihr]; omega

theorem bstreeToArray_append (n : Node) (pre post : Buffer) (i : Nat)
    (hi : pre.length = i) (hn : n.size ≤ post.length) :
    bstreeToArray n (pre ++ post) i =
      (pre ++ n.inorderSeq.map some ++ post.drop n.size, i + n.size) := by
  induction n generalizing pre post i with
  | nil => simp [bstreeToArray, inorderSeq, size]
  | node data left right ihl ihr =>
    simp only [size] at hn
    have hl := ihl pre post i hi (by omega)
    simp only [bstreeToArray, hl]
    have hlt : left.size < post.length := by omega
    have hdrop : post.drop left.size = post[left.size] :: post.drop (left.size + 1) :=
      List.drop_eq_getElem_cons hlt
    have hlen : (pre ++ List.map some left.inorderSeq).length = i + left.size := by
      simp [hi, length_inorderSeq]
    have hset : (pre ++ List.map some left.inorderSeq ++ post.drop left.size).set
        (i + left.size) (some data) =
        (pre ++ List.map some left.inorderSeq ++ [some data]) ++ post.drop (left.size + 1) := by
      rw [hdrop, ← hlen, List.set_append_right _ _ (le_refl _), Nat.sub_self,
        List.set_cons_zero, List.append_assoc, List.append_assoc, List.append_assoc]
      rfl
    rw [hset]
    have hr := ihr (pre ++ List.map some left.inorderSeq ++ [some data])
      (post.drop (left.size + 1)) (i + left.size + 1)
      (by rw [List.length_append, hlen]; rfl)
      (by rw [List.length_drop]; omega)
    rw [hr]
    simp only [inorderSeq, size, List.map_append, List.map_cons, List.append_assoc,
      List.singleton_append, List.drop_drop, Prod.mk.injEq, List.cons_append, List.nil_append]
    exact ⟨trivial, by omega⟩

end Node

/-! ## Facts about the conversion from a buffer -/

namespace Node

theorem getD_set_none (arr : Buffer) (i j : Nat) :
    (arr.set i none).getD j none = if j = i then none else arr.getD j none := by
  simp only [List.getD_eq_getElem?_getD, List.getElem?_set]
  by_cases h : i = j
  · subst h
    by_cases h2 : i < arr.length <;> simp [h2]
  · have h' : ¬ j = i := fun e => h e.symm
    simp [h, h']

theorem arrayToBSTree_eq_build (slot : Int → NodeData) (sz : Nat) :
    ∀ (arr : Buffer) (n : Node) (lo hi : Int), (hi - lo + 1).toNat = sz → 0 ≤ lo →
      (∀ j : Int, lo ≤ j → j ≤ hi → arr.getD j.toNat none = some (slot j)) →
      ∃ arr', arrayToBSTree arr n lo hi = some (build slot lo hi, arr') ∧
        arr'.length = arr.length ∧
        ∀ j : Nat, arr'.getD j none =
          if lo ≤ (j : Int) ∧ (j : Int) ≤ hi then none else arr.getD j none := by
  induction sz using Nat.strong_induction_on with
  | _ sz ih =>
    intro arr n lo hi hsz hlo hslots
    by_cases hcond : hi < lo
    · refine ⟨arr, ?_, rfl, ?_⟩
      · rw [arrayToBSTree.eq_def, build]
        simp [hcond, pluck_eq_nil]
      · intro j
        have : ¬ (lo ≤ (j : Int) ∧ (j : Int) ≤ hi) := by omega
        simp [this]
    · have hm : (hi - lo).tdiv 2 = (hi - lo) / 2 := Int.tdiv_eq_ediv (by omega) (by omega)
      have hget := hslots (lo + (hi - lo) / 2) (by omega) (by omega)
      obtain ⟨arr₂, h₂, hlen₂, hget₂⟩ := ih ((lo + (hi - lo) / 2 - 1) - lo + 1).toNat (by omega)
        (arr.set (lo + (hi - lo) / 2).toNat none)
        (if lo + (hi - lo) / 2 = lo ∧ lo + (hi - lo) / 2 = hi then
            pluck n.leftLink false
          else if lo + (hi - lo) / 2 = lo then
            pluck n.leftLink false
          else n.leftLink)
        lo (lo + (hi - lo) / 2 - 1) rfl hlo (by
          intro j hj1 hj2
          rw [getD_set_none, if_neg (by omega)]
          exact hslots j hj1 (by omega))
      obtain ⟨arr₃, h₃, hlen₃, hget₃⟩ := ih (hi - (lo + (hi - lo) / 2 + 1) + 1).toNat (by omega)
        arr₂
        (if lo + (hi - lo) / 2 = lo ∧ lo + (hi - lo) / 2 = hi then
            pluck n.rightLink false
          else n.rightLink)
        (lo + (hi - lo) / 2 + 1) hi rfl (by omega) (by
          intro j hj1 hj2
          rw [hget₂, if_neg (by omega), getD_set_none, if_neg (by omega)]
          exact hslots j (by omega) hj2)
      refine ⟨arr₃, ?_, ?_, ?_⟩
      · rw [arrayToBSTree.eq_def, build]
        simp only [hm, gt_iff_lt, hcond, or_self, if_false, hget, h₂, h₃]
      · rw [hlen₃, hlen₂, List.length_set]
      · intro j
        rw [hget₃, hget₂, getD_set_none]
        by_cases c1 : lo + (hi - lo) / 2 + 1 ≤ (j : Int) ∧ (j : Int) ≤ hi
        · rw [if_pos c1, if_pos (by omega)]
        · rw [if_neg c1]
          by_cases c2 : lo ≤ (j : Int) ∧ (j : Int) ≤ lo + (hi - lo) / 2 - 1
          · rw [if_pos c2, if_pos (by omega)]
          · rw [if_neg c2]
            by_cases c3 : j = (lo + (hi - lo) / 2).toNat
            · rw [if_pos c3, if_pos (by omega)]
            · rw [if_neg c3, if_neg (by omega)]

end Node

namespace Node

theorem findHiLoop_eq (arr : Buffer) (k : Nat) (hk : k ≤ 100)
    (hocc : ∀ j, 1 ≤ j → j < k → arr.getD j none ≠ none)
    (hend : k = 100 ∨ arr.getD k none = none) :
    ∀ d i, i + d + 1 = k → findHiLoop arr i = k - 1 := by
  intro d
  induction d with
  | zero =>
    intro i hi
    rw [findHiLoop]
    have h1 : i < 100 := by omega
    have h2 : i + 1 = 100 ∨ arr.getD (i + 1) none = none := by
      have : i + 1 = k := by omega
      rw [this]
      exact hend
    rw [if_pos h1, if_pos h2]
    omega
  | succ d ih =>
    intro i hi
    rw [findHiLoop]
    have h1 : i < 100 := by omega
    have h2 : ¬ (i + 1 = 100 ∨ arr.getD (i + 1) none = none) := by
      rintro (h | h)
      · omega
      · exact hocc (i + 1) (by omega) (by omega) h
    rw [if_pos h1, if_neg h2]
    exact ih (i + 1) (by omega)

theorem inorderSeq_build (slot : Int → NodeData) (sz : Nat) :
    ∀ lo hi : Int, (hi - lo + 1).toNat = sz →
      (build slot lo hi).inorderSeq = (List.range sz).map (fun i => slot (lo + (i : Nat))) := by
  induction sz using Nat.strong_induction_on with
  | _ sz ih =>
    intro lo hi hsz
    rw [build]
    by_cases hcond : hi < lo
    · have : sz = 0 := by omega
      subst this
      simp [hcond, inorderSeq]
    · rw [if_neg hcond]
      simp only [inorderSeq]
      rw [ih _ (by omega) lo (lo + (hi - lo) / 2 - 1) rfl,
        ih _ (by omega) (lo + (hi - lo) / 2 + 1) hi rfl]
      have hsplit : sz = (lo + (hi - lo) / 2 - 1 - lo + 1).toNat +
          (1 + (hi - (lo + (hi - lo) / 2 + 1) + 1).toNat) := by omega
      have hb : ((lo + (hi - lo) / 2 - 1 - lo + 1).toNat : Int) = (hi - lo) / 2 := by omega
      have hone : List.range 1 = [0] := rfl
      conv_rhs => rw [hsplit, List.range_add, List.range_add, hone]
      simp only [List.map_append, List.map_map, List.map_cons, List.map_nil]
      congr 1
      rw [List.singleton_append]
      congr 1
      · congr 1
        push_cast
        omega
      · apply List.map_congr_left
        intro i _
        simp only [Function.comp_apply]
        congr 1
        push_cast
        omega

end Node

theorem Buffer.ext_getD (a b : Buffer) (hlen : a.length = b.length)
    (h : ∀ j : Nat, a.getD j none = b.getD j none) : a = b := by
  apply List.ext_getElem hlen
  intro j h1 h2
  have := h j
  simpa [List.getD_eq_getElem?_getD, List.getElem?_eq_getElem h1, List.getElem?_eq_getElem h2]
    using this

theorem getD_replicate_none (m j : Nat) :
    (List.replicate m none : Buffer).getD j none = none := by
  rw [List.getD_eq_getElem?_getD, List.getElem?_replicate]
  split <;> rfl

theorem getD_run (xs : List NodeData) (m j : Nat) :
    (xs.map some ++ List.replicate m none : Buffer).getD j none =
      if j < xs.length then some (xs.getD j ⟨""⟩) else none := by
  simp only [List.getD_eq_getElem?_getD]
  by_cases h : j < xs.length
  · rw [List.getElem?_append_left (by simpa using h)]
    simp [h]
  · rw [List.getElem?_append_right (by simpa using h), List.getElem?_replicate]
    rw [if_neg h]
    split <;> rfl

theorem range_map_getD (xs : List NodeData) :
    (List.range xs.length).map (fun i => xs.getD i ⟨""⟩) = xs := by
  apply List.ext_getElem (by simp)
  intro j h1 h2
  simp [List.getD_eq_getElem?_getD, List.getElem?_eq_getElem h2]

theorem BinTree.arrayToBSTree_run (xs : List NodeData) (hk2 : 2 ≤ xs.length)
    (hk : xs.length ≤ 100) (t : BinTree) (cout : String) :
    t.arrayToBSTree (xs.map some ++ List.replicate (100 - xs.length) none) cout =
      some (⟨Node.build (fun j => xs.getD j.toNat ⟨""⟩) 0 ((xs.length : Int) - 1)⟩,
        List.replicate 100 none, cout) ∧
    (Node.build (fun j => xs.getD j.toNat ⟨""⟩) 0 ((xs.length : Int) - 1)).inorderSeq = xs := by
  have hfind : Node.findHi (xs.map some ++ List.replicate (100 - xs.length) none) =
      (xs.length : Int) - 1 := by
    unfold Node.findHi
    rw [Node.findHiLoop_eq _ xs.length hk (fun j _ hj => by rw [getD_run, if_pos hj]; simp)
      (Or.inr (by rw [getD_run, if_neg (lt_irrefl _)])) (xs.length - 1) 0 (by omega)]
    omega
  obtain ⟨arr', h1, hlen, hget⟩ := Node.arrayToBSTree_eq_build (fun j => xs.getD j.toNat ⟨""⟩)
    _ (xs.map some ++ List.replicate (100 - xs.length) none) t.root 0 ((xs.length : Int) - 1)
    rfl (le_refl _) (by
      intro j hj1 hj2
      rw [getD_run, if_pos (by omega)])
  have harr : arr' = List.replicate 100 none := by
    apply Buffer.ext_getD
    · rw [hlen]
      simp
      omega
    · intro j
      rw [hget, getD_run]
      by_cases c : j < xs.length
      · rw [if_pos (by omega), getD_replicate_none]
      · rw [if_neg (by omega), if_neg c, getD_replicate_none]
  constructor
  · unfold BinTree.arrayToBSTree
    simp only [hfind]
    rw [if_neg (by omega), h1, harr]
  · rw [Node.inorderSeq_build _ _ 0 _ rfl]
    have : ((xs.length : Int) - 1 - 0 + 1).toNat = xs.length := by omega
    rw [this]
    simpa using range_map_getD xs

theorem BinTree.bstreeToArray_initArray (t : BinTree) (h100 : t.root.size ≤ 100) :
    t.bstreeToArray initArray =
      (BinTree.empty, t.root.inorderSeq.map some ++
        List.replicate (100 - t.root.inorderSeq.length) none) := by
  have h := Node.bstreeToArray_append t.root [] initArray 0 rfl (by simpa [initArray] using h100)
  simp only [List.nil_append] at h
  simp only [BinTree.bstreeToArray, h, BinTree.makeEmpty, Node.pluck_eq_nil, BinTree.empty]
  simp only [initArray, ARRAYSIZE, List.drop_replicate, Node.length_inorderSeq]

theorem BinTree.round_trip_of_two_or_more (t : BinTree) (h2 : 2 ≤ t.root.size)
    (h100 : t.root.size ≤ 100) (cout : String) :
    ∃ t' : BinTree,
      (t.bstreeToArray initArray).1.arrayToBSTree (t.bstreeToArray initArray).2 cout =
        some (t', List.replicate 100 none, cout) ∧
      t'.root.inorderSeq = t.root.inorderSeq := by
  rw [BinTree.bstreeToArray_initArray t h100]
  have hlen := Node.length_inorderSeq t.root
  have h := BinTree.arrayToBSTree_run t.root.inorderSeq (by omega) (by omega) BinTree.empty cout
  exact ⟨_, h.1, h.2⟩

theorem Node.getDepth_eq_firstMatchDepth (n : Node) (target : NodeData) (k : Int)
    (h : n.getDepth target = some k) : k = n.firstMatchDepth target := by
  induction n generalizing k with
  | nil =>
    simp only [Node.getDepth, Option.some.injEq] at h
    simp [Node.firstMatchDepth, ← h]
  | node data left right ihl ihr =>
    unfold Node.getDepth at h
    unfold Node.firstMatchDepth
    cases h1 : NodeData.eq target data
    · simp only [h1, Bool.false_eq_true, if_false] at h ⊢
      cases hl : left.getDepth target with
      | none => simp [hl] at h
      | some dl =>
        have el := ihl dl hl
        simp only [hl] at h
        by_cases c1 : dl > 0
        · simp only [c1, if_true, Option.some.injEq] at h
          rw [← el, if_pos c1, ← h]
        · simp only [c1, if_false] at h
          rw [← el, if_neg c1]
          cases hr : right.getDepth target with
          | none => simp [hr] at h
          | some dr =>
            have er := ihr dr hr
            simp only [hr] at h
            by_cases c2 : dr > 0
            · simp only [c2, if_true, Option.some.injEq] at h
              rw [← er, if_pos c2, ← h]
            · simp [c2] at h
    · simp only [h1, if_true, Option.some.injEq] at h ⊢
      exact h.symm

/-! ## Facts about `getDepth` and `retrieve` on arbitrary trees -/

namespace Node

theorem eq_false_of_not_mem (data target : NodeData) (left right : Node)
    (h : target ∉ (node data left right).inorderSeq) : NodeData.eq target data = false := by
  cases e : NodeData.eq target data
  · rfl
  · exfalso
    apply h
    rw [(NodeData.eq_iff _ _).1 e]
    simp [inorderSeq]

theorem getDepth_miss (n : Node) (target : NodeData) (h : target ∉ n.inorderSeq) :
    getDepth n target = if n.isNil then some 0 else none := by
  induction n with
  | nil => rfl
  | node data left right ihl ihr =>
    have h1 := eq_false_of_not_mem data target left right h
    simp only [inorderSeq, List.mem_append, List.mem_cons, not_or] at h
    rw [getDepth]
    simp only [h1, ihl h.1, ihr h.2.2, isNil]
    cases left <;> cases right <;> simp [isNil]

theorem getDepth_of_not_mem (data : NodeData) (left right : Node) (target : NodeData)
    (h : target ∉ (node data left right).inorderSeq) :
    getDepth (node data left right) target = none := by
  rw [getDepth_miss _ _ h]
  rfl

theorem retrieve_cases (n : Node) (target : NodeData) (ret : Option NodeData) :
    (retrieve n target ret = (true, some target) ∧ target ∈ n.inorderSeq) ∨
      retrieve n target ret = (false, none) := by
  induction n with
  | nil => exact Or.inr rfl
  | node data left right ihl ihr =>
    unfold retrieve
    cases h1 : NodeData.eq target data
    · cases h2 : NodeData.lt target data
      · simp only [Bool.false_eq_true, if_false]
        rcases ihr with ⟨h, hm⟩ | h
        · exact Or.inl ⟨h, by simp [inorderSeq, hm]⟩
        · exact Or.inr h
      · simp only [Bool.false_eq_true, if_false, if_true]
        rcases ihl with ⟨h, hm⟩ | h
        · exact Or.inl ⟨h, by simp [inorderSeq, hm]⟩
        · exact Or.inr h
    · have : target = data := (NodeData.eq_iff _ _).1 h1
      subst this
      exact Or.inl ⟨by simp, by simp [inorderSeq]⟩

end Node

/-! ## Facts about the reference tree `build` -/

namespace Node

theorem build_of_lt (slot : Int → NodeData) (lo hi : Int) (h : hi < lo) :
    build slot lo hi = nil := by
  rw [build, if_pos h]

theorem build_of_le (slot : Int → NodeData) (lo hi : Int) (h : lo ≤ hi) :
    build slot lo hi = node (slot (lo + (hi - lo) / 2)) (build slot lo (lo + (hi - lo) / 2 - 1))
      (build slot (lo + (hi - lo) / 2 + 1) hi) := by
  rw [build, if_neg (by omega)]

theorem size_build (slot : Int → NodeData) (lo hi : Int) :
    (build slot lo hi).size = (hi - lo + 1).toNat := by
  rw [← length_inorderSeq, inorderSeq_build slot _ lo hi rfl]
  simp

theorem height_build (slot : Int → NodeData) (sz : Nat) :
    ∀ lo hi : Int, (hi - lo + 1).toNat = sz →
      (build slot lo hi).height = Nat.clog 2 (sz + 1) := by
  induction sz using Nat.strong_induction_on with
  | _ sz ih =>
    intro lo hi hsz
    by_cases hcond : hi < lo
    · have : sz = 0 := by omega
      subst this
      rw [build_of_lt slot lo hi hcond]
      simp [height, Nat.clog_one_right]
    · rw [build_of_le slot lo hi (by omega)]
      simp only [height]
      rw [ih _ (by omega) lo (lo + (hi - lo) / 2 - 1) rfl,
        ih _ (by omega) (lo + (hi - lo) / 2 + 1) hi rfl]
      have hle : Nat.clog 2 ((lo + (hi - lo) / 2 - 1 - lo + 1).toNat + 1) ≤
          Nat.clog 2 ((hi - (lo + (hi - lo) / 2 + 1) + 1).toNat + 1) :=
        Nat.clog_mono_right 2 (by omega)
      rw [max_eq_right hle, Nat.clog_of_two_le (by decide) (by omega : 2 ≤ sz + 1)]
      congr 2
      omega

theorem noLeftOnly_build (slot : Int → NodeData) (sz : Nat) :
    ∀ lo hi : Int, (hi - lo + 1).toNat = sz → (build slot lo hi).noLeftOnly = true := by
  induction sz using Nat.strong_induction_on with
  | _ sz ih =>
    intro lo hi hsz
    by_cases hcond : hi < lo
    · rw [build_of_lt slot lo hi hcond]
      rfl
    · rw [build_of_le slot lo hi (by omega)]
      simp only [noLeftOnly, Bool.and_eq_true, Bool.or_eq_true]
      refine ⟨⟨?_, ih _ (by omega) _ _ rfl⟩, ih _ (by omega) _ _ rfl⟩
      by_cases hone : lo + (hi - lo) / 2 - 1 < lo
      · left
        rw [build_of_lt slot _ _ hone]
        rfl
      · right
        rw [build_of_le slot (lo + (hi - lo) / 2 + 1) hi (by omega)]
        rfl

theorem arrayToBSTree_occupied (arr : Buffer) (n : Node) (lo hi : Int) (hlo : 0 ≤ lo)
    (hocc : ∀ j : Int, lo ≤ j → j ≤ hi → arr.getD j.toNat none ≠ none) :
    ∃ arr', arrayToBSTree arr n lo hi = some (build (slotPayload arr) lo hi, arr') ∧
      arr'.length = arr.length ∧
      ∀ j : Nat, arr'.getD j none =
        if lo ≤ (j : Int) ∧ (j : Int) ≤ hi then none else arr.getD j none := by
  apply arrayToBSTree_eq_build (slotPayload arr) _ arr n lo hi rfl hlo
  intro j hj1 hj2
  have := hocc j hj1 hj2
  unfold slotPayload
  cases h : arr.getD j.toNat none with
  | none => exact absurd h this
  | some d => rfl

end Node

/-! ## Facts about `arrayToBSTree` on a buffer that holds a run of payloads -/

theorem Node.findHi_of_run (arr : Buffer) (k : Nat) (hk : k ≤ 100)
    (hocc : ∀ j, 1 ≤ j → j < k → arr.getD j none ≠ none)
    (hemp : ∀ j, k ≤ j → arr.getD j none = none) :
    Node.findHi arr = ((k - 1 : Nat) : Int) := by
  unfold Node.findHi
  by_cases h1 : k ≤ 1
  · rw [Node.findHiLoop_eq arr 1 (by omega) (fun j h1 h2 => by omega)
      (Or.inr (hemp 1 h1)) 0 0 rfl]
    congr 1
    omega
  · rw [Node.findHiLoop_eq arr k hk hocc (Or.inr (hemp k le_rfl)) (k - 1) 0 (by omega)]

theorem BinTree.arrayToBSTree_of_short_run (arr : Buffer) (k : Nat) (hk : k ≤ 1)
    (hemp : ∀ j, k ≤ j → arr.getD j none = none) (t : BinTree) (cout : String) :
    t.arrayToBSTree arr cout = some (t, arr, cout ++ BinTree.arrayEmptyNotice) := by
  have hfind := Node.findHi_of_run arr k (by omega) (fun j h1 h2 => by omega) hemp
  unfold BinTree.arrayToBSTree
  simp only [hfind]
  rw [if_pos (by omega)]

theorem BinTree.arrayToBSTree_of_run (arr : Buffer) (k : Nat) (hlen : arr.length = ARRAYSIZE)
    (hk2 : 2 ≤ k) (hk : k ≤ 100)
    (hocc : ∀ j, j < k → arr.getD j none ≠ none)
    (hemp : ∀ j, k ≤ j → arr.getD j none = none) (t : BinTree) (cout : String) :
    t.arrayToBSTree arr cout =
      some (⟨Node.build (slotPayload arr) 0 ((k : Int) - 1)⟩, initArray, cout) := by
  have hfind := Node.findHi_of_run arr k hk (fun j _ h2 => hocc j h2) hemp
  obtain ⟨arr', h1, hlen', hget⟩ := Node.arrayToBSTree_occupied arr t.root 0 ((k : Int) - 1)
    (le_refl _) (fun j hj1 hj2 => hocc j.toNat (by omega))
  have harr : arr' = initArray := by
    apply Buffer.ext_getD
    · rw [hlen', hlen]
      simp [initArray]
    · intro j
      rw [hget]
      unfold initArray
      rw [getD_replicate_none]
      by_cases c : j < k
      · rw [if_pos (by omega)]
      · rw [if_neg (by omega)]
        exact hemp j (by omega)
  unfold BinTree.arrayToBSTree
  simp only [hfind]
  have hcast : ((k - 1 : Nat) : Int) = (k : Int) - 1 := by omega
  rw [if_neg (by omega), hcast, h1, harr]

theorem getD_runBuffer (xs : List NodeData) (j : Nat) :
    (runBuffer xs).getD j none = if j < xs.length then some (xs.getD j ⟨""⟩) else none := by
  unfold runBuffer
  exact getD_run xs _ j

theorem length_runBuffer (xs : List NodeData) (h : xs.length ≤ 100) :
    (runBuffer xs).length = ARRAYSIZE := by
  simp only [runBuffer, ARRAYSIZE, List.length_append, List.length_map, List.length_replicate]
  omega

/-! ## Facts about the frame of `insert` -/

namespace Node

theorem payloadAt_append_none (n : Node) (p r : List Bool) (h : n.payloadAt p = none) :
    n.payloadAt (p ++ r) = none := by
  induction p generalizing n with
  | nil =>
    cases n with
    | nil => cases r <;> rfl
    | node data left right => simp [payloadAt] at h
  | cons b p ih =>
    cases n with
    | nil => rfl
    | node data left right =>
      cases b
      · simp only [payloadAt, Bool.false_eq_true, if_false, List.cons_append] at h ⊢
        exact ih left h
      · simp only [payloadAt, if_true, List.cons_append] at h ⊢
        exact ih right h

theorem insert_true_frame (nd : NodeData) (n : Node) (h : (insert nd n).1 = true) :
    ∃ p : List Bool, n.payloadAt p = none ∧ (insert nd n).2.payloadAt p = some nd ∧
      (∀ q, q ≠ p → (insert nd n).2.payloadAt q = n.payloadAt q) ∧
      (insert nd n).2.size = n.size + 1 := by
  induction n with
  | nil =>
    refine ⟨[], rfl, rfl, ?_, rfl⟩
    intro q hq
    cases q with
    | nil => exact absurd rfl hq
    | cons b q => cases b <;> rfl
  | node data left right ihl ihr =>
    unfold insert at h ⊢
    cases h1 : NodeData.eq nd data
    · cases h2 : NodeData.lt nd data
      · simp only [h1, h2, Bool.false_eq_true, if_false] at h ⊢
        obtain ⟨p, hp1, hp2, hp3, hp4⟩ := ihr h
        refine ⟨true :: p, by simpa [payloadAt] using hp1, by simpa [payloadAt] using hp2,
          ?_, by simp only [size, hp4]; omega⟩
        intro q hq
        cases q with
        | nil => rfl
        | cons b q =>
          cases b
          · rfl
          · simp only [payloadAt, if_true]
            exact hp3 q (fun e => hq (by rw [e]))
      · simp only [h1, h2, Bool.false_eq_true, if_false, if_true] at h ⊢
        obtain ⟨p, hp1, hp2, hp3, hp4⟩ := ihl h
        refine ⟨false :: p, by simpa [payloadAt] using hp1, by simpa [payloadAt] using hp2,
          ?_, by simp only [size, hp4]; omega⟩
        intro q hq
        cases q with
        | nil => rfl
        | cons b q =>
          cases b
          · simp only [payloadAt, Bool.false_eq_true, if_false]
            exact hp3 q (fun e => hq (by rw [e]))
          · rfl
    · simp [h1] at h

end Node

/-! ## Facts about `sideways` -/

theorem indentText_data (k : Nat) : (indentText k).data = List.replicate (4 * k) ' ' := by
  induction k with
  | zero => rfl
  | succ k ih =>
    simp only [indentText, String.data_append, ih]
    have : 4 * (k + 1) = 4 + 4 * k := by omega
    rw [this, List.replicate_add]
    rfl

theorem renderLines_append (steps : Nat → Nat) (l₁ l₂ : List (Nat × NodeData)) :
    renderLines steps (l₁ ++ l₂) = renderLines steps l₁ ++ renderLines steps l₂ := by
  induction l₁ with
  | nil => simp [renderLines]
  | cons line rest ih => simp [renderLines, ih, String.append_assoc]

namespace Node

theorem sidewaysIndent_eq (i : Nat) (cout : String) :
    sidewaysIndent i cout = cout ++ indentText (i + 1) := by
  induction i generalizing cout with
  | zero => simp [sidewaysIndent, indentText]
  | succ i ih =>
    rw [sidewaysIndent, ih]
    simp only [indentText, String.append_assoc]

theorem sideways_eq (n : Node) (level : Nat) (cout : String) :
    sideways n level cout = cout ++ renderLines (fun d => d + 2) (sidewaysLines n level) := by
  induction n generalizing level cout with
  | nil => simp [sideways, sidewaysLines, renderLines]
  | node data left right ihl ihr =>
    simp only [sideways, sidewaysLines, ihl, ihr, sidewaysIndent_eq, NodeData.print,
      renderLines_append, renderLines, String.append_assoc]

theorem length_sidewaysLines (n : Node) (depth : Nat) :
    (sidewaysLines n depth).length = n.size := by
  induction n generalizing depth with
  | nil => rfl
  | node data left right ihl ihr =>
    simp only [sidewaysLines, List.length_append, List.length_cons, ihl, ihr, size]
    omega

theorem sidewaysLines_payloads (n : Node) (depth : Nat) :
    (sidewaysLines n depth).map Prod.snd = n.inorderSeq.reverse := by
  induction n generalizing depth with
  | nil => rfl
  | node data left right ihl ihr =>
    simp [sidewaysLines, inorderSeq, ihl, ihr]

theorem sidewaysLines_depth (n : Node) (depth : Nat) (line : Nat × NodeData)
    (h : line ∈ sidewaysLines n depth) :
    ∃ p : List Bool, n.payloadAt p = some line.2 ∧ line.1 = depth + p.length := by
  induction n generalizing depth with
  | nil => simp [sidewaysLines] at h
  | node data left right ihl ihr =>
    simp only [sidewaysLines, List.mem_append, List.mem_cons] at h
    rcases h with h | h | h
    · obtain ⟨p, hp1, hp2⟩ := ihr (depth + 1) h
      exact ⟨true :: p, by simpa [payloadAt] using hp1, by simp only [hp2, List.length_cons]; omega⟩
    · subst h
      exact ⟨[], rfl, rfl⟩
    · obtain ⟨p, hp1, hp2⟩ := ihl (depth + 1) h
      exact ⟨false :: p, by simpa [payloadAt] using hp1, by simp only [hp2, List.length_cons]; omega⟩

end Node

/-! ## Facts about what a conversion leaves behind and picks up -/

theorem BinTree.bstreeToArray_eq (t : BinTree) (arr : Buffer) (hn : t.root.size ≤ arr.length) :
    t.bstreeToArray arr =
      (BinTree.empty, t.root.inorderSeq.map some ++ arr.drop t.root.size) := by
  have h := Node.bstreeToArray_append t.root [] arr 0 rfl hn
  simp only [List.nil_append] at h
  simp only [BinTree.bstreeToArray, h, BinTree.makeEmpty, Node.pluck_eq_nil, BinTree.empty]

theorem BinTree.getD_bstreeToArray (t : BinTree) (arr : Buffer) (hn : t.root.size ≤ arr.length)
    (j : Nat) :
    (t.bstreeToArray arr).2.getD j none =
      if j < t.root.size then some (t.root.inorderSeq.getD j ⟨""⟩) else arr.getD j none := by
  rw [BinTree.bstreeToArray_eq t arr hn]
  simp only [List.getD_eq_getElem?_getD]
  by_cases h : j < t.root.size
  · rw [if_pos h, List.getElem?_append_left (by simpa [Node.length_inorderSeq] using h)]
    have h' : j < t.root.inorderSeq.length := by simpa [Node.length_inorderSeq] using h
    simp [h']
  · rw [if_neg h, List.getElem?_append_right (by simpa [Node.length_inorderSeq] using h)]
    simp only [List.length_map, Node.length_inorderSeq, List.getElem?_drop]
    congr 2
    omega

theorem BinTree.arrayToBSTree_prefix (arr : Buffer) (k : Nat) (hk2 : 2 ≤ k) (hk : k ≤ 100)
    (hocc : ∀ j, j < k → arr.getD j none ≠ none)
    (hend : k = 100 ∨ arr.getD k none = none) (t : BinTree) (cout : String) :
    ∃ arr' : Buffer,
      t.arrayToBSTree arr cout =
        some (⟨Node.build (slotPayload arr) 0 ((k : Int) - 1)⟩, arr', cout) ∧
      arr'.length = arr.length ∧
      (∀ j : Nat, arr'.getD j none = if j < k then none else arr.getD j none) ∧
      (Node.build (slotPayload arr) 0 ((k : Int) - 1)).inorderSeq =
        (List.range k).map (fun i => slotPayload arr (i : Nat)) := by
  have hfind : Node.findHi arr = (k : Int) - 1 := by
    unfold Node.findHi
    rw [Node.findHiLoop_eq arr k hk (fun j _ h2 => hocc j h2) hend (k - 1) 0 (by omega)]
    omega
  obtain ⟨arr', h1, hlen', hget⟩ := Node.arrayToBSTree_occupied arr t.root 0 ((k : Int) - 1)
    (le_refl _) (fun j hj1 hj2 => hocc j.toNat (by omega))
  refine ⟨arr', ?_, hlen', ?_, ?_⟩
  · unfold BinTree.arrayToBSTree
    simp only [hfind]
    rw [if_neg (by omega), h1]
  · intro j
    rw [hget]
    by_cases c : j < k
    · rw [if_pos (by omega), if_pos c]
    · rw [if_neg (by omega), if_neg c]
  · rw [Node.inorderSeq_build _ _ 0 _ rfl]
    have : ((k : Int) - 1 - 0 + 1).toNat = k := by omega
    rw [this]
    apply List.map_congr_left
    intro i _
    congr 1
    omega

theorem BinTree.arrayToBSTree_picks_up (arr : Buffer) (n : Nat) (hn1 : 1 ≤ n) (hn : n < 100)
    (hocc : ∀ j, j ≤ n → arr.getD j none ≠ none) (t : BinTree) (cout : String) :
    ∃ (t' : BinTree) (arr' : Buffer),
      t.arrayToBSTree arr cout = some (t', arr', cout) ∧
      slotPayload arr n ∈ t'.root.inorderSeq ∧ arr'.getD n none = none := by
  have hex : ∃ j, n < j ∧ (j = 100 ∨ arr.getD j none = none) := ⟨100, hn, Or.inl rfl⟩
  have hspec := Nat.find_spec hex
  have hmin : ∀ j, j < Nat.find hex → ¬ (n < j ∧ (j = 100 ∨ arr.getD j none = none)) :=
    fun j hj => Nat.find_min hex hj
  have hle : Nat.find hex ≤ 100 := Nat.find_min' hex ⟨hn, Or.inl rfl⟩
  obtain ⟨arr', h1, _, hget, hseq⟩ := BinTree.arrayToBSTree_prefix arr (Nat.find hex)
    (by omega) hle (fun j hj => by
      by_cases c : j ≤ n
      · exact hocc j c
      · intro h0
        exact hmin j hj ⟨by omega, Or.inr h0⟩) hspec.2 t cout
  refine ⟨_, arr', h1, ?_, ?_⟩
  · rw [hseq]
    exact List.mem_map.2 ⟨n, List.mem_range.2 hspec.1, rfl⟩
  · rw [hget, if_pos hspec.1]

theorem BinTree.arrayToBSTree_picks_up_all (arr : Buffer) (n : Nat) (hn1 : 1 ≤ n)
    (hn : n < 100) (hocc : ∀ j, j ≤ n → arr.getD j none ≠ none) (t : BinTree)
    (cout : String) :
    ∃ (t' : BinTree) (arr' : Buffer),
      t.arrayToBSTree arr cout = some (t', arr', cout) ∧
      ∀ j, j ≤ n → slotPayload arr j ∈ t'.root.inorderSeq ∧ arr'.getD j none = none := by
  have hex : ∃ j, n < j ∧ (j = 100 ∨ arr.getD j none = none) := ⟨100, hn, Or.inl rfl⟩
  have hspec := Nat.find_spec hex
  have hmin : ∀ j, j < Nat.find hex → ¬ (n < j ∧ (j = 100 ∨ arr.getD j none = none)) :=
    fun j hj => Nat.find_min hex hj
  have hle : Nat.find hex ≤ 100 := Nat.find_min' hex ⟨hn, Or.inl rfl⟩
  obtain ⟨arr', h1, _, hget, hseq⟩ := BinTree.arrayToBSTree_prefix arr (Nat.find hex)
    (by omega) hle (fun j hj => by
      by_cases c : j ≤ n
      · exact hocc j c
      · intro h0
        exact hmin j hj ⟨by omega, Or.inr h0⟩) hspec.2 t cout
  refine ⟨_, arr', h1, ?_⟩
  intro j hj
  have hjk : j < Nat.find hex := by omega
  constructor
  · rw [hseq]
    exact List.mem_map.2 ⟨j, List.mem_range.2 hjk, rfl⟩
  · rw [hget, if_pos hjk]

/-! ## The reference tree of an ascending run is a BST -/

namespace Node

theorem mem_inorderSeq_build (slot : Int → NodeData) (lo hi : Int) (x : NodeData)
    (h : x ∈ (build slot lo hi).inorderSeq) : ∃ j : Int, lo ≤ j ∧ j ≤ hi ∧ x = slot j := by
  rw [inorderSeq_build slot _ lo hi rfl] at h
  obtain ⟨i, hi1, hi2⟩ := List.mem_map.1 h
  have := List.mem_range.1 hi1
  exact ⟨lo + (i : Nat), by omega, by omega, hi2.symm⟩

theorem isBST_build (slot : Int → NodeData) (sz : Nat) :
    ∀ lo hi : Int, (hi - lo + 1).toNat = sz →
      (∀ i j : Int, lo ≤ i → i < j → j ≤ hi → NodeData.lt (slot i) (slot j) = true) →
      (build slot lo hi).isBST = true := by
  induction sz using Nat.strong_induction_on with
  | _ sz ih =>
    intro lo hi hsz hasc
    by_cases hcond : hi < lo
    · rw [build_of_lt slot lo hi hcond]
      rfl
    · rw [build_of_le slot lo hi (by omega)]
      refine (isBST_node _ _ _).2 ⟨?_, ?_, ?_, ?_⟩
      · intro x hx
        obtain ⟨j, hj1, hj2, rfl⟩ := mem_inorderSeq_build slot _ _ x hx
        exact hasc j _ hj1 (by omega) (by omega)
      · intro x hx
        obtain ⟨j, hj1, hj2, rfl⟩ := mem_inorderSeq_build slot _ _ x hx
        exact hasc _ j (by omega) (by omega) hj2
      · exact ih _ (by omega) _ _ rfl (fun i j h1 h2 h3 => hasc i j h1 h2 (by omega))
      · exact ih _ (by omega) _ _ rfl (fun i j h1 h2 h3 => hasc i j (by omega) h2 h3)

end Node

/-! ## The claims -/

/-- C1: for every sequence of payloads (distinct or not, in any order) inserted into
an empty tree with `insert`, every target and every prior value of the output
parameter, `retrieve` reports found if and only if the target equals one of the
inserted payloads. -/
theorem C1_retrieve_finds_exactly_the_inserted (xs : List String) (target : NodeData)
    (ret : Option NodeData) :
    ((buildTree BinTree.empty xs).retrieve target ret).1 = true ↔ target.data ∈ xs := by
  have hb : (buildTree BinTree.empty xs).root.isBST = true := buildTree_isBST _ _ rfl
  have hm : target ∈ (buildTree BinTree.empty xs).root.inorderSeq ↔ target.data ∈ xs := by
    rw [mem_buildTree]
    simp [BinTree.empty, Node.inorderSeq]
  rw [← hm]
  unfold BinTree.retrieve BinTree.isEmpty
  cases hroot : (buildTree BinTree.empty xs).root with
  | nil => simp [Node.inorderSeq]
  | node data left right =>
    rw [hroot] at hb
    by_cases hmem : target ∈ (Node.node data left right).inorderSeq
    · simp [Node.retrieve_of_mem _ target ret hb hmem, hmem]
    · simp [Node.retrieve_of_not_mem _ target ret hmem, hmem]

/-- C2: for every tree built from the empty tree by `insert` calls and every payload,
`insert` returns false if and only if an equal payload (under `NodeData::operator==`)
is already in the tree, and when it returns false the tree after the call is the tree
before the call: same shape, same payloads, same number of nodes. -/
theorem C2_insert_rejects_exactly_duplicates (xs : List String) (nd : NodeData) :
    (((buildTree BinTree.empty xs).insert (some nd)).1 = false ↔
      ∃ x ∈ (buildTree BinTree.empty xs).root.inorderSeq, NodeData.eq nd x = true) ∧
    (((buildTree BinTree.empty xs).insert (some nd)).1 = false →
      ((buildTree BinTree.empty xs).insert (some nd)).2 = buildTree BinTree.empty xs ∧
      ((buildTree BinTree.empty xs).insert (some nd)).2.root.size =
        (buildTree BinTree.empty xs).root.size) := by
  have hb : (buildTree BinTree.empty xs).root.isBST = true := buildTree_isBST _ _ rfl
  have hex : (∃ x ∈ (buildTree BinTree.empty xs).root.inorderSeq, NodeData.eq nd x = true) ↔
      nd ∈ (buildTree BinTree.empty xs).root.inorderSeq := by
    constructor
    · rintro ⟨x, hx, he⟩
      rw [(NodeData.eq_iff _ _).1 he]
      exact hx
    · intro h
      exact ⟨nd, h, NodeData.eq_self nd⟩
  refine ⟨?_, ?_⟩
  · rw [hex]
    exact Node.insert_false_iff nd _ hb
  · intro h
    have h2 := Node.insert_unchanged nd (buildTree BinTree.empty xs).root h
    simp [BinTree.insert, h2]

/-- Witness for C2: after inserting "b" then "a", a second "a" is rejected. -/
theorem C2_insert_rejects_exactly_duplicates_witness :
    ((buildTree BinTree.empty ["b", "a"]).insert (some ⟨"a"⟩)).1 = false ∧
    ((buildTree BinTree.empty ["b", "a"]).insert (some ⟨"a"⟩)).2 =
      buildTree BinTree.empty ["b", "a"] ∧
    ((buildTree BinTree.empty ["b", "a"]).insert (some ⟨"a"⟩)).2.root.size =
      (buildTree BinTree.empty ["b", "a"]).root.size :=
  have h : ((buildTree BinTree.empty ["b", "a"]).insert (some ⟨"a"⟩)).1 = false := by
    simp +decide [buildTree, BinTree.insert, Node.insert, NodeData.eq, NodeData.lt,
      BinTree.empty]
  ⟨h, (C2_insert_rejects_exactly_duplicates ["b", "a"] ⟨"a"⟩).2 h⟩

/-- C3: `insert` preserves the BST invariant: if every node of a tree has only smaller
payloads in its left subtree and only greater payloads in its right subtree, the tree
after `insert` of any payload (or of a null pointer) has the same property; hence
every tree built from the empty tree by `insert` calls alone has it. -/
theorem C3_insert_preserves_bst (t : BinTree) (nd : Option NodeData)
    (h : t.root.isBST = true) :
    (t.insert nd).2.root.isBST = true ∧
    ∀ xs : List String, (buildTree BinTree.empty xs).root.isBST = true := by
  refine ⟨?_, fun xs => buildTree_isBST _ _ rfl⟩
  cases nd with
  | none => exact h
  | some nd => exact Node.isBST_insert nd t.root h

/-- Witness for C3: the tree with root "m" and left child "e" is a BST, and so is
the tree after inserting "g". -/
theorem C3_insert_preserves_bst_witness :
    (⟨Node.node ⟨"m"⟩ (Node.node ⟨"e"⟩ Node.nil Node.nil) Node.nil⟩ : BinTree).root.isBST = true ∧
    ((⟨Node.node ⟨"m"⟩ (Node.node ⟨"e"⟩ Node.nil Node.nil) Node.nil⟩ : BinTree).insert
      (some ⟨"g"⟩)).2.root.isBST = true :=
  have h : (⟨Node.node ⟨"m"⟩ (Node.node ⟨"e"⟩ Node.nil Node.nil) Node.nil⟩ :
      BinTree).root.isBST = true := by
    simp [Node.isBST, Node.inorderSeq, NodeData.lt, NodeData.gt]
    decide
  ⟨h, (C3_insert_preserves_bst _ (some ⟨"g"⟩) h).1⟩

/-- C4: for every sequence of payloads inserted into an empty tree with `insert`, the
in-order traversal (left, node, right) of the resulting tree is strictly ascending and
holds exactly the inserted payloads, and `inorder` writes that sequence; inserting
"m", "e", "t", "and", "not", "sss" in that order gives and, e, m, not, sss, t. -/
theorem C4_inorder_lists_inserted_ascending (xs : List String) :
    Node.Ascending (buildTree BinTree.empty xs).root.inorderSeq ∧
    (∀ x : NodeData, x ∈ (buildTree BinTree.empty xs).root.inorderSeq ↔ x.data ∈ xs) ∧
    (∀ out : String, (buildTree BinTree.empty xs).inorder out =
      out ++ Node.renderSeq (buildTree BinTree.empty xs).root.inorderSeq) ∧
    (buildTree BinTree.empty ["m", "e", "t", "and", "not", "sss"]).root.inorderSeq =
      [⟨"and"⟩, ⟨"e"⟩, ⟨"m"⟩, ⟨"not"⟩, ⟨"sss"⟩, ⟨"t"⟩] ∧
    (buildTree BinTree.empty ["m", "e", "t", "and", "not", "sss"]).inorder "" =
      "and e m not sss t " := by
  refine ⟨Node.ascending_inorderSeq _ (buildTree_isBST _ _ rfl), ?_, ?_, ?_, ?_⟩
  · intro x
    rw [mem_buildTree]
    simp [BinTree.empty, Node.inorderSeq]
  · intro out
    exact Node.inorderHelper_eq _ out
  · simp [buildTree, BinTree.insert, Node.insert, NodeData.eq, NodeData.lt, BinTree.empty,
      Node.inorderSeq]
  · simp [buildTree, BinTree.insert, Node.insert, NodeData.eq, NodeData.lt, BinTree.empty,
      BinTree.inorder, Node.inorderHelper, NodeData.print]

/-- C5: for every pair of binary trees (BST-ordered or not), `operator==` returns true
if and only if at every position the two trees agree on whether a node is present and
on its payload; two empty trees are equal, an empty and a non-empty tree are unequal
(either way round), and the trees built by inserting "b", "a", "c" and by inserting
"a", "b", "c", which hold the same payloads in different shapes, are unequal. -/
theorem C5_operatorEq_is_shape_and_payload_equality (a b : BinTree) :
    (a.operatorEq b = true ↔ ∀ p : List Bool, a.root.payloadAt p = b.root.payloadAt p) ∧
    BinTree.empty.operatorEq BinTree.empty = true ∧
    (∀ (data : NodeData) (left right : Node),
      BinTree.empty.operatorEq ⟨Node.node data left right⟩ = false ∧
      (⟨Node.node data left right⟩ : BinTree).operatorEq BinTree.empty = false) ∧
    ((buildTree BinTree.empty ["b", "a", "c"]).root.inorderSeq =
        (buildTree BinTree.empty ["a", "b", "c"]).root.inorderSeq ∧
      (buildTree BinTree.empty ["b", "a", "c"]).operatorEq
        (buildTree BinTree.empty ["a", "b", "c"]) = false) := by
  refine ⟨?_, rfl, fun data left right => ⟨rfl, rfl⟩, ?_, ?_⟩
  · unfold BinTree.operatorEq
    rw [Node.checkEqual_iff_eq, Node.eq_iff_payloadAt]
  · simp +decide [buildTree, BinTree.insert, Node.insert, NodeData.eq, NodeData.lt,
      BinTree.empty, Node.inorderSeq]
  · simp +decide [buildTree, BinTree.insert, Node.insert, NodeData.eq, NodeData.lt,
      BinTree.empty, BinTree.operatorEq, Node.checkEqual]

/-- C6: for every store of trees and every destination and source in it, whatever
the destination held before, after `operator=` the destination compares `==` to the
source and the source is what it was; and the tree built by the copy constructor,
which starts from an empty destination, compares `==` to its source. -/
theorem C6_assignment_yields_equal_tree (s : Store) (self rhs : Nat) (src : BinTree) :
    ((BinTree.operatorAssign s self rhs) self).operatorEq
      ((BinTree.operatorAssign s self rhs) rhs) = true ∧
    (BinTree.operatorAssign s self rhs) rhs = s rhs ∧
    (BinTree.copyConstructor src).operatorEq src = true := by
  have hc : (BinTree.copyConstructor src).operatorEq src = true := by
    simp [BinTree.copyConstructor, BinTree.operatorAssign, BinTree.operatorEq,
      Node.copySubtree_eq, Node.checkEqual_self]
  refine ⟨?_, ?_, hc⟩
  · by_cases h : self = rhs
    · subst h
      simp [BinTree.operatorAssign, BinTree.operatorEq, Node.checkEqual_self]
    · have h2 : rhs ≠ self := fun e => h e.symm
      simp [BinTree.operatorAssign, BinTree.operatorEq, Node.checkEqual_self, h, h2,
        Function.update, Node.copySubtree_eq]
  · by_cases h : self = rhs
    · subst h
      simp [BinTree.operatorAssign]
    · have h2 : rhs ≠ self := fun e => h e.symm
      simp [BinTree.operatorAssign, h, h2, Function.update]

/-- C7 (evaluation at the failing input): for a tree of one node and a buffer of 100
empty slots, `bstreeToArray` moves the payload to slot 0 and empties the tree, and the
`arrayToBSTree` that follows gives up with the empty-array notice, leaving the tree
empty and the payload in slot 0; the in-order sequence was one payload and is none. -/
theorem C7_single_node_round_trip_loses_the_payload (p : NodeData) :
    (⟨Node.node p Node.nil Node.nil⟩ : BinTree).bstreeToArray initArray =
      (BinTree.empty, some p :: List.replicate 99 none) ∧
    BinTree.empty.arrayToBSTree (some p :: List.replicate 99 none) "" =
      some (BinTree.empty, some p :: List.replicate 99 none, BinTree.arrayEmptyNotice) ∧
    (⟨Node.node p Node.nil Node.nil⟩ : BinTree).root.inorderSeq = [p] ∧
    BinTree.empty.root.inorderSeq = [] := by
  refine ⟨?_, ?_, rfl, rfl⟩
  · rfl
  · simp [BinTree.arrayToBSTree, Node.findHi, Node.findHiLoop]

/-- C8 (evaluation at the failing input, k = 1): when slot 0 holds a payload and the
other 99 slots are empty, `arrayToBSTree` gives up with the empty-array notice for
every destination tree: slot 0 keeps its payload and the tree is what it was, so an
empty destination stays empty. -/
theorem C8_one_payload_buffer_is_not_converted (p : NodeData) (t : BinTree)
    (cout : String) :
    t.arrayToBSTree (some p :: List.replicate 99 none) cout =
      some (t, some p :: List.replicate 99 none, cout ++ BinTree.arrayEmptyNotice) ∧
    (some p :: List.replicate 99 none : Buffer).length = ARRAYSIZE := by
  refine ⟨?_, rfl⟩
  simp [BinTree.arrayToBSTree, Node.findHi, Node.findHiLoop]

/-- C9: for every tree with n <= 100 nodes and every buffer of 100 slots, after
`bstreeToArray` slots 0..n-1 of the buffer hold the payloads of the tree in in-order
(left, node, right) sequence, that sequence is strictly ascending when the tree
satisfies the BST invariant, the buffer still has 100 slots, and the tree is empty. -/
theorem C9_bstreeToArray_fills_in_order (t : BinTree) (arr : Buffer)
    (hlen : arr.length = ARRAYSIZE) (hn : t.root.size ≤ 100) :
    (t.bstreeToArray arr).2.take t.root.size = t.root.inorderSeq.map some ∧
    (t.root.isBST = true → Node.Ascending t.root.inorderSeq) ∧
    (t.bstreeToArray arr).2.length = ARRAYSIZE ∧
    (t.bstreeToArray arr).1.isEmpty = true := by
  have hsz : t.root.size ≤ arr.length := by
    rw [hlen]
    exact hn
  have h := Node.bstreeToArray_append t.root [] arr 0 rfl hsz
  simp only [List.nil_append] at h
  refine ⟨?_, Node.ascending_inorderSeq _, ?_, ?_⟩
  · simp only [BinTree.bstreeToArray, h]
    rw [List.take_append_of_le_length (by simp [Node.length_inorderSeq])]
    rw [List.take_of_length_le (by simp [Node.length_inorderSeq])]
  · simp only [BinTree.bstreeToArray, h, List.length_append, List.length_map,
      Node.length_inorderSeq, List.length_drop]
    omega
  · simp [BinTree.bstreeToArray, BinTree.makeEmpty, Node.pluck_eq_nil, BinTree.isEmpty]

/-- Witness for C9: the two-node tree with root "b" and left child "a", emptied into
a buffer of 100 empty slots. -/
theorem C9_bstreeToArray_fills_in_order_witness :
    initArray.length = ARRAYSIZE ∧
    (⟨Node.node ⟨"b"⟩ (Node.node ⟨"a"⟩ Node.nil Node.nil) Node.nil⟩ : BinTree).root.size ≤ 100 ∧
    ((⟨Node.node ⟨"b"⟩ (Node.node ⟨"a"⟩ Node.nil Node.nil) Node.nil⟩ : BinTree).bstreeToArray
      initArray).2.take 2 = [some ⟨"a"⟩, some ⟨"b"⟩] ∧
    ((⟨Node.node ⟨"b"⟩ (Node.node ⟨"a"⟩ Node.nil Node.nil) Node.nil⟩ : BinTree).bstreeToArray
      initArray).1.isEmpty = true :=
  have h1 : initArray.length = ARRAYSIZE := by simp [initArray]
  have h2 : (⟨Node.node ⟨"b"⟩ (Node.node ⟨"a"⟩ Node.nil Node.nil) Node.nil⟩ :
      BinTree).root.size ≤ 100 := by decide
  have h := C9_bstreeToArray_fills_in_order
    ⟨Node.node ⟨"b"⟩ (Node.node ⟨"a"⟩ Node.nil Node.nil) Node.nil⟩ initArray h1 h2
  ⟨h1, h2, h.1, h.2.2.2⟩

/-- C10 (evaluation at the failing input): in the tree built by inserting "m", "e",
"t" the target "t" is present at depth 2, its first match in node, left, right order,
but `getDepth` runs off the end of the call on the subtree rooted at "e" without a
return statement, so it has no defined result. -/
theorem C10_getDepth_undefined_right_of_a_nonempty_left_subtree :
    ⟨"t"⟩ ∈ (buildTree BinTree.empty ["m", "e", "t"]).root.inorderSeq ∧
    (buildTree BinTree.empty ["m", "e", "t"]).root.firstMatchDepth ⟨"t"⟩ = 2 ∧
    (buildTree BinTree.empty ["m", "e", "t"]).getDepth ⟨"t"⟩ = none ∧
    Node.getDepth (Node.node ⟨"e"⟩ Node.nil Node.nil) ⟨"t"⟩ = none := by
  refine ⟨?_, ?_, ?_, ?_⟩
  · simp +decide [buildTree, BinTree.insert, Node.insert, NodeData.eq, NodeData.lt,
      BinTree.empty, Node.inorderSeq]
  · simp +decide [buildTree, BinTree.insert, Node.insert, NodeData.eq, NodeData.lt,
      BinTree.empty, Node.firstMatchDepth]
  · simp +decide [buildTree, BinTree.insert, Node.insert, NodeData.eq, NodeData.lt,
      BinTree.empty, BinTree.getDepth, Node.getDepth]
  · simp +decide [Node.getDepth, NodeData.eq]

/-- C11 (evaluation at the failing input): the one-node tree holding "m" holds no
payload equal to the target "x", and `getDepth` for "x" runs off the end of the
function without a return statement, so it has no defined result where the claim
says 0; only on the empty tree does it return 0. -/
theorem C11_getDepth_of_absent_target_has_no_result :
    (⟨"x"⟩ : NodeData) ∉ (Node.node ⟨"m"⟩ Node.nil Node.nil).inorderSeq ∧
    (⟨Node.node ⟨"m"⟩ Node.nil Node.nil⟩ : BinTree).getDepth ⟨"x"⟩ = none ∧
    BinTree.empty.getDepth ⟨"x"⟩ = some 0 := by
  refine ⟨?_, ?_, rfl⟩
  · simp [Node.inorderSeq]
  · simp +decide [BinTree.getDepth, Node.getDepth, NodeData.eq]

/-- C12 (as amended): after inserting "m", "e", "t", "and", "not", "sss" in that
order into an empty tree, `getDepth` returns 1 for "m" and 2 for "e"; "sss" is the
right child of "not", which is the left child of "t", the right child of the root,
so it stands at depth 4. -/
theorem C12_getDepth_scenario_m_and_e :
    (buildTree BinTree.empty ["m", "e", "t", "and", "not", "sss"]).getDepth ⟨"m"⟩ = some 1 ∧
    (buildTree BinTree.empty ["m", "e", "t", "and", "not", "sss"]).getDepth ⟨"e"⟩ = some 2 ∧
    (buildTree BinTree.empty ["m", "e", "t", "and", "not", "sss"]).root.payloadAt
      [true, false, true] = some ⟨"sss"⟩ ∧
    (buildTree BinTree.empty ["m", "e", "t", "and", "not", "sss"]).root.firstMatchDepth
      ⟨"sss"⟩ = 4 := by
  refine ⟨?_, ?_, ?_, ?_⟩
  · simp +decide [buildTree, BinTree.insert, Node.insert, NodeData.eq, NodeData.lt,
      BinTree.empty, BinTree.getDepth, Node.getDepth]
  · simp +decide [buildTree, BinTree.insert, Node.insert, NodeData.eq, NodeData.lt,
      BinTree.empty, BinTree.getDepth, Node.getDepth]
  · simp +decide [buildTree, BinTree.insert, Node.insert, NodeData.eq, NodeData.lt,
      BinTree.empty, Node.payloadAt]
  · simp +decide [buildTree, BinTree.insert, Node.insert, NodeData.eq, NodeData.lt,
      BinTree.empty, Node.firstMatchDepth]

/-- Counterexample to C12 as stated: in the tree built by inserting "m", "e", "t",
"and", "not", "sss", `getDepth` does not return 3 for "sss": the payload stands at
depth 4, and the call runs off the end of `getDepth` on the subtree rooted at "e". -/
theorem C12_getDepth_scenario_sss_is_not_3 :
    (buildTree BinTree.empty ["m", "e", "t", "and", "not", "sss"]).getDepth ⟨"sss"⟩ ≠ some 3 ∧
    (buildTree BinTree.empty ["m", "e", "t", "and", "not", "sss"]).getDepth ⟨"sss"⟩ = none ∧
    (buildTree BinTree.empty ["m", "e", "t", "and", "not", "sss"]).root.firstMatchDepth
      ⟨"sss"⟩ ≠ 3 := by
  refine ⟨?_, ?_, ?_⟩
  · simp +decide [buildTree, BinTree.insert, Node.insert, NodeData.eq, NodeData.lt,
      BinTree.empty, BinTree.getDepth, Node.getDepth]
  · simp +decide [buildTree, BinTree.insert, Node.insert, NodeData.eq, NodeData.lt,
      BinTree.empty, BinTree.getDepth, Node.getDepth]
  · simp +decide [buildTree, BinTree.insert, Node.insert, NodeData.eq, NodeData.lt,
      BinTree.empty, Node.firstMatchDepth]

/-- C13: for every tree and either value of the keep flag, the tree after `makeEmpty`
is empty (`isEmpty` returns true); and on that tree, as on any empty tree, for every
target and every prior value of the output parameter `retrieve` reports not found
and `getDepth` returns 0. -/
theorem C13_makeEmpty_leaves_an_empty_tree (t : BinTree) (keep : Bool) (target : NodeData)
    (ret : Option NodeData) :
    (t.makeEmpty keep).isEmpty = true ∧
    t.makeEmpty keep = BinTree.empty ∧
    ((t.makeEmpty keep).retrieve target ret).1 = false ∧
    (t.makeEmpty keep).getDepth target = some 0 ∧
    (BinTree.empty.retrieve target ret).1 = false ∧
    BinTree.empty.getDepth target = some 0 := by
  have h : t.makeEmpty keep = BinTree.empty := by
    simp [BinTree.makeEmpty, BinTree.empty, Node.pluck_eq_nil]
  rw [h]
  exact ⟨rfl, rfl, rfl, rfl, rfl, rfl⟩

/-- C14: self-assignment is a no-op: for every store of trees and every tree `T` in
it, `T = T` changes nothing, so `T` keeps its shape and payloads; and in the chained
form `dup = dup = T` the outer assignment `dup = dup` changes nothing after the inner
`dup = T`, and `T` is what it was. -/
theorem C14_self_assignment_is_a_no_op (s : Store) (T dup : Nat) :
    BinTree.operatorAssign s T T = s ∧
    (BinTree.operatorAssign s T T) T = s T ∧
    BinTree.operatorAssign (BinTree.operatorAssign s dup T) dup dup =
      BinTree.operatorAssign s dup T ∧
    (BinTree.operatorAssign (BinTree.operatorAssign s dup T) dup dup) T = s T := by
  have h1 : ∀ (s : Store) (a : Nat), BinTree.operatorAssign s a a = s := by
    intro s a
    simp [BinTree.operatorAssign]
  refine ⟨h1 s T, by rw [h1], h1 _ dup, ?_⟩
  rw [h1]
  by_cases h : dup = T
  · subst h
    rw [h1]
  · have h2 : T ≠ dup := fun e => h e.symm
    simp [BinTree.operatorAssign, h, h2, Function.update]

/-- C15: `operator==` is reflexive and symmetric on arbitrary binary trees: `a == a`
is true, and `a == b` has the value of `b == a`. -/
theorem C15_operatorEq_reflexive_and_symmetric (a b : BinTree) :
    a.operatorEq a = true ∧ a.operatorEq b = b.operatorEq a := by
  refine ⟨Node.checkEqual_self _, ?_⟩
  unfold BinTree.operatorEq
  cases hab : Node.checkEqual a.root b.root
  · cases hba : Node.checkEqual b.root a.root
    · rfl
    · have := (Node.checkEqual_iff_eq _ _).1 hba
      rw [this, Node.checkEqual_self] at hab
      exact Bool.noConfusion hab
  · have := (Node.checkEqual_iff_eq _ _).1 hab
    rw [this, Node.checkEqual_self]

/-- C16: for every buffer of 100 slots whose first k slots (0 <= k <= 100) hold
payloads and whose remaining slots are empty, `arrayToBSTree` on an empty tree
produces a tree in which no node has a left child but no right child: a node with
exactly one child has it on the right. -/
theorem C16_single_children_are_on_the_right (arr : Buffer) (k : Nat) (cout : String)
    (hlen : arr.length = ARRAYSIZE) (hk : k ≤ 100)
    (hocc : ∀ j, j < k → arr.getD j none ≠ none)
    (hemp : ∀ j, k ≤ j → arr.getD j none = none) :
    ∃ (t : BinTree) (arr' : Buffer) (cout' : String),
      BinTree.empty.arrayToBSTree arr cout = some (t, arr', cout') ∧
      t.root.noLeftOnly = true := by
  by_cases h2 : 2 ≤ k
  · exact ⟨_, _, _, BinTree.arrayToBSTree_of_run arr k hlen h2 hk hocc hemp _ cout,
      Node.noLeftOnly_build _ _ _ _ rfl⟩
  · exact ⟨_, _, _, BinTree.arrayToBSTree_of_short_run arr k (by omega) hemp _ cout, rfl⟩

/-- Witness for C16: the buffer holding "a", "b" in its first two slots. -/
theorem C16_single_children_are_on_the_right_witness :
    (runBuffer [⟨"a"⟩, ⟨"b"⟩]).length = ARRAYSIZE ∧
    (∀ j, j < 2 → (runBuffer [⟨"a"⟩, ⟨"b"⟩]).getD j none ≠ none) ∧
    (∀ j, 2 ≤ j → (runBuffer [⟨"a"⟩, ⟨"b"⟩]).getD j none = none) ∧
    ∃ (t : BinTree) (arr' : Buffer) (cout' : String),
      BinTree.empty.arrayToBSTree (runBuffer [⟨"a"⟩, ⟨"b"⟩]) "" = some (t, arr', cout') ∧
      t.root.noLeftOnly = true :=
  have h1 : (runBuffer [⟨"a"⟩, ⟨"b"⟩]).length = ARRAYSIZE := length_runBuffer _ (by decide)
  have h2 : ∀ j, j < 2 → (runBuffer [⟨"a"⟩, ⟨"b"⟩]).getD j none ≠ none := by
    intro j hj
    rw [getD_runBuffer, if_pos (by simpa using hj)]
    exact Option.some_ne_none _
  have h3 : ∀ j, 2 ≤ j → (runBuffer [⟨"a"⟩, ⟨"b"⟩]).getD j none = none := by
    intro j hj
    rw [getD_runBuffer, if_neg (by simpa using hj)]
  ⟨h1, h2, h3, C16_single_children_are_on_the_right _ 2 "" h1 (by decide) h2 h3⟩

/-- C17 (evaluation at the failing input): on the empty tree `retrieve` returns false
and leaves the output parameter at the value it had before the call, so a `ret` that
was not null is still not null. On a non-empty tree the claim holds: either the call
returns true with `ret` at a payload of the tree equal to the target, or it returns
false with `ret` null. -/
theorem C17_retrieve_on_empty_tree_keeps_ret (target z data : NodeData) (left right : Node)
    (ret : Option NodeData) :
    BinTree.empty.retrieve target (some z) = (false, some z) ∧
    (((⟨Node.node data left right⟩ : BinTree).retrieve target ret = (true, some target) ∧
        target ∈ (Node.node data left right).inorderSeq) ∨
      (⟨Node.node data left right⟩ : BinTree).retrieve target ret = (false, none)) := by
  refine ⟨rfl, ?_⟩
  simp only [BinTree.retrieve, BinTree.isEmpty]
  rcases Node.retrieve_cases (Node.node data left right) target ret with ⟨h, hm⟩ | h
  · left
    rw [h]
    exact ⟨rfl, hm⟩
  · right
    rw [h]
    rfl

/-- C18: for every index range `lo..hi` (with `0 <= lo`) whose n = hi - lo + 1 >= 0
slots all hold payloads (n = 0 when `hi < lo`), and whatever subtree the destination
link held before, the recursive `arrayToBSTree` produces a subtree with exactly n
nodes and height exactly ceil(log2(n+1)), the least h with n + 1 <= 2^h. -/
theorem C18_range_builder_size_and_height (arr : Buffer) (n : Node) (lo hi : Int)
    (hlo : 0 ≤ lo)
    (hocc : ∀ j : Int, lo ≤ j → j ≤ hi → arr.getD j.toNat none ≠ none) :
    ∃ (t : Node) (arr' : Buffer),
      Node.arrayToBSTree arr n lo hi = some (t, arr') ∧
      t.size = (hi - lo + 1).toNat ∧
      t.height = Nat.clog 2 (t.size + 1) ∧
      (∀ h : Nat, t.size + 1 ≤ 2 ^ h ↔ t.height ≤ h) := by
  obtain ⟨arr', h1, _, _⟩ := Node.arrayToBSTree_occupied arr n lo hi hlo hocc
  have hs := Node.size_build (slotPayload arr) lo hi
  have hh := Node.height_build (slotPayload arr) _ lo hi rfl
  refine ⟨_, arr', h1, hs, by rw [hs, hh], ?_⟩
  intro h
  rw [hs, hh]
  exact Nat.le_pow_iff_clog_le (by decide)

/-- Witness for C18: the range 0..2 of the buffer holding "a", "b", "c", built into
a null link. -/
theorem C18_range_builder_size_and_height_witness :
    (0 : Int) ≤ 0 ∧
    (∀ j : Int, 0 ≤ j → j ≤ 2 →
      (runBuffer [⟨"a"⟩, ⟨"b"⟩, ⟨"c"⟩]).getD j.toNat none ≠ none) ∧
    ∃ (t : Node) (arr' : Buffer),
      Node.arrayToBSTree (runBuffer [⟨"a"⟩, ⟨"b"⟩, ⟨"c"⟩]) Node.nil 0 2 = some (t, arr') ∧
      t.size = 3 ∧
      t.height = Nat.clog 2 (t.size + 1) ∧
      (∀ h : Nat, t.size + 1 ≤ 2 ^ h ↔ t.height ≤ h) :=
  have h3 : ∀ j : Int, 0 ≤ j → j ≤ 2 →
      (runBuffer [⟨"a"⟩, ⟨"b"⟩, ⟨"c"⟩]).getD j.toNat none ≠ none := by
    intro j hj1 hj2
    rw [getD_runBuffer, if_pos (by simp only [List.length_cons, List.length_nil]; omega)]
    exact Option.some_ne_none _
  ⟨le_refl _, h3, C18_range_builder_size_and_height _ Node.nil 0 2 (le_refl _) h3⟩

/-- C19: for every buffer of 100 slots whose first k slots hold payloads, with
2 <= k <= 100, and whose remaining slots are empty, and for every destination tree,
`arrayToBSTree` yields exactly the reference tree `build 0 (k-1)`, where `build lo hi`
is empty when `hi < lo` and otherwise is the node holding slot
`mid = lo + (hi - lo) / 2` with left subtree `build lo (mid-1)` and right subtree
`build (mid+1) hi`; the result is the same for every destination tree, every buffer
slot is empty afterwards, and nothing is written to `cout`. -/
theorem C19_arrayToBSTree_yields_the_reference_tree (arr : Buffer) (k : Nat) (t : BinTree)
    (cout : String) (hlen : arr.length = ARRAYSIZE) (hk2 : 2 ≤ k) (hk : k ≤ 100)
    (hocc : ∀ j, j < k → arr.getD j none ≠ none)
    (hemp : ∀ j, k ≤ j → arr.getD j none = none) :
    t.arrayToBSTree arr cout =
      some (⟨Node.build (slotPayload arr) 0 ((k : Int) - 1)⟩, initArray, cout) ∧
    (∀ lo hi : Int, hi < lo → Node.build (slotPayload arr) lo hi = Node.nil) ∧
    (∀ lo hi : Int, lo ≤ hi → Node.build (slotPayload arr) lo hi =
      Node.node (slotPayload arr (lo + (hi - lo) / 2))
        (Node.build (slotPayload arr) lo (lo + (hi - lo) / 2 - 1))
        (Node.build (slotPayload arr) (lo + (hi - lo) / 2 + 1) hi)) ∧
    (∀ j, j < k → arr.getD j none = some (slotPayload arr j)) :=
  ⟨BinTree.arrayToBSTree_of_run arr k hlen hk2 hk hocc hemp t cout,
    fun lo hi h => Node.build_of_lt _ lo hi h,
    fun lo hi h => Node.build_of_le _ lo hi h,
    fun j hj => by
      have := hocc j hj
      unfold slotPayload
      simp only [Int.toNat_ofNat]
      cases h : arr.getD j none with
      | none => exact absurd h this
      | some d => rfl⟩

/-- Witness for C19: the buffer holding "a", "b", "c" converted into a tree that
held the single payload "z": the result is "b" with children "a" and "c". -/
theorem C19_arrayToBSTree_yields_the_reference_tree_witness :
    (runBuffer [⟨"a"⟩, ⟨"b"⟩, ⟨"c"⟩]).length = ARRAYSIZE ∧
    (∀ j, j < 3 → (runBuffer [⟨"a"⟩, ⟨"b"⟩, ⟨"c"⟩]).getD j none ≠ none) ∧
    (∀ j, 3 ≤ j → (runBuffer [⟨"a"⟩, ⟨"b"⟩, ⟨"c"⟩]).getD j none = none) ∧
    (⟨Node.node ⟨"z"⟩ Node.nil Node.nil⟩ : BinTree).arrayToBSTree
      (runBuffer [⟨"a"⟩, ⟨"b"⟩, ⟨"c"⟩]) "" =
      some (⟨Node.build (slotPayload (runBuffer [⟨"a"⟩, ⟨"b"⟩, ⟨"c"⟩])) 0 2⟩, initArray, "") ∧
    Node.build (slotPayload (runBuffer [⟨"a"⟩, ⟨"b"⟩, ⟨"c"⟩])) 0 2 =
      Node.node ⟨"b"⟩ (Node.node ⟨"a"⟩ Node.nil Node.nil) (Node.node ⟨"c"⟩ Node.nil Node.nil) :=
  have h1 : (runBuffer [⟨"a"⟩, ⟨"b"⟩, ⟨"c"⟩]).length = ARRAYSIZE :=
    length_runBuffer _ (by decide)
  have h2 : ∀ j, j < 3 → (runBuffer [⟨"a"⟩, ⟨"b"⟩, ⟨"c"⟩]).getD j none ≠ none := by
    intro j hj
    rw [getD_runBuffer, if_pos (by simpa using hj)]
    exact Option.some_ne_none _
  have h3 : ∀ j, 3 ≤ j → (runBuffer [⟨"a"⟩, ⟨"b"⟩, ⟨"c"⟩]).getD j none = none := by
    intro j hj
    rw [getD_runBuffer, if_neg (by simpa using hj)]
  have h4 : Node.build (slotPayload (runBuffer [⟨"a"⟩, ⟨"b"⟩, ⟨"c"⟩])) 0 2 =
      Node.node ⟨"b"⟩ (Node.node ⟨"a"⟩ Node.nil Node.nil)
        (Node.node ⟨"c"⟩ Node.nil Node.nil) := by
    rw [Node.build_of_le _ 0 2 (by decide)]
    norm_num
    rw [Node.build_of_le _ 0 0 (by decide), Node.build_of_le _ 2 2 (by decide)]
    norm_num
    rw [Node.build_of_lt _ 0 (-1) (by decide), Node.build_of_lt _ 1 0 (by decide),
      Node.build_of_lt _ 2 1 (by decide), Node.build_of_lt _ 3 2 (by decide)]
    simp +decide [slotPayload, runBuffer, ARRAYSIZE]
  ⟨h1, h2, h3,
    (C19_arrayToBSTree_yields_the_reference_tree _ 3 _ "" h1 (by decide) (by decide) h2 h3).1,
    h4⟩

/-- C20: when the 100-slot buffer holds no payload, or exactly one payload, in slot 0
with every other slot empty, `findHi` returns 0 and `arrayToBSTree` writes the
empty-array notice to `cout` and changes neither the tree, whatever it holds, nor
the buffer: the single payload stays in slot 0. -/
theorem C20_short_buffers_are_left_alone (t : BinTree) (p : NodeData) (cout : String) :
    Node.findHi initArray = 0 ∧
    Node.findHi (runBuffer [p]) = 0 ∧
    t.arrayToBSTree initArray cout = some (t, initArray, cout ++ BinTree.arrayEmptyNotice) ∧
    t.arrayToBSTree (runBuffer [p]) cout =
      some (t, runBuffer [p], cout ++ BinTree.arrayEmptyNotice) ∧
    runBuffer [p] = some p :: List.replicate 99 none ∧
    (runBuffer [p]).getD 0 none = some p := by
  have h0 : ∀ j, 0 ≤ j → initArray.getD j none = none := fun j _ => by
    unfold initArray
    exact getD_replicate_none _ j
  have h1 : ∀ j, 1 ≤ j → (runBuffer [p]).getD j none = none := fun j hj => by
    rw [getD_runBuffer, if_neg (by simp only [List.length_cons, List.length_nil]; omega)]
  refine ⟨?_, ?_, BinTree.arrayToBSTree_of_short_run _ 0 (by decide) h0 t cout,
    BinTree.arrayToBSTree_of_short_run _ 1 (by decide) h1 t cout, rfl, rfl⟩
  · exact Node.findHi_of_run _ 0 (by decide) (fun j _ h => absurd h (by omega)) h0
  · exact Node.findHi_of_run _ 1 (by decide) (fun j h1 h2 => absurd h2 (by omega)) h1

/-- C21: for every tree built by `insert` calls and every payload not already in it,
`insert` returns true and adds exactly one new leaf holding the payload: a position
that was empty now holds the payload and has no children, every other position holds
what it held before (so every earlier node keeps its payload, its place and its other
children), and the node count grows by exactly one. -/
theorem C21_successful_insert_adds_one_leaf (xs : List String) (nd : NodeData)
    (h : nd ∉ (buildTree BinTree.empty xs).root.inorderSeq) :
    ((buildTree BinTree.empty xs).insert (some nd)).1 = true ∧
    ∃ p : List Bool,
      (buildTree BinTree.empty xs).root.payloadAt p = none ∧
      ((buildTree BinTree.empty xs).insert (some nd)).2.root.payloadAt p = some nd ∧
      ((buildTree BinTree.empty xs).insert (some nd)).2.root.payloadAt (p ++ [false]) = none ∧
      ((buildTree BinTree.empty xs).insert (some nd)).2.root.payloadAt (p ++ [true]) = none ∧
      (∀ q, q ≠ p → ((buildTree BinTree.empty xs).insert (some nd)).2.root.payloadAt q =
        (buildTree BinTree.empty xs).root.payloadAt q) ∧
      ((buildTree BinTree.empty xs).insert (some nd)).2.root.size =
        (buildTree BinTree.empty xs).root.size + 1 := by
  have hb : (buildTree BinTree.empty xs).root.isBST = true := buildTree_isBST _ _ rfl
  have ht : (Node.insert nd (buildTree BinTree.empty xs).root).1 = true := by
    cases e : (Node.insert nd (buildTree BinTree.empty xs).root).1
    · exact absurd ((Node.insert_false_iff nd _ hb).1 e) h
    · rfl
  obtain ⟨p, hp1, hp2, hp3, hp4⟩ := Node.insert_true_frame nd _ ht
  refine ⟨ht, p, hp1, hp2, ?_, ?_, hp3, hp4⟩
  · simp only [BinTree.insert]
    rw [hp3 (p ++ [false]) (by simp)]
    exact Node.payloadAt_append_none _ p _ hp1
  · simp only [BinTree.insert]
    rw [hp3 (p ++ [true]) (by simp)]
    exact Node.payloadAt_append_none _ p _ hp1

/-- Witness for C21: inserting "a" into the tree built from "b" adds the leaf "a" at
some position and brings the node count from 1 to 2. -/
theorem C21_successful_insert_adds_one_leaf_witness :
    (⟨"a"⟩ : NodeData) ∉ (buildTree BinTree.empty ["b"]).root.inorderSeq ∧
    ((buildTree BinTree.empty ["b"]).insert (some ⟨"a"⟩)).1 = true ∧
    ∃ p : List Bool,
      (buildTree BinTree.empty ["b"]).root.payloadAt p = none ∧
      ((buildTree BinTree.empty ["b"]).insert (some ⟨"a"⟩)).2.root.payloadAt p = some ⟨"a"⟩ ∧
      ((buildTree BinTree.empty ["b"]).insert (some ⟨"a"⟩)).2.root.payloadAt (p ++ [false]) =
        none ∧
      ((buildTree BinTree.empty ["b"]).insert (some ⟨"a"⟩)).2.root.payloadAt (p ++ [true]) =
        none ∧
      (∀ q, q ≠ p → ((buildTree BinTree.empty ["b"]).insert (some ⟨"a"⟩)).2.root.payloadAt q =
        (buildTree BinTree.empty ["b"]).root.payloadAt q) ∧
      ((buildTree BinTree.empty ["b"]).insert (some ⟨"a"⟩)).2.root.size =
        (buildTree BinTree.empty ["b"]).root.size + 1 :=
  have h : (⟨"a"⟩ : NodeData) ∉ (buildTree BinTree.empty ["b"]).root.inorderSeq := by
    simp +decide [buildTree, BinTree.insert, Node.insert, BinTree.empty, Node.inorderSeq]
  ⟨h, C21_successful_insert_adds_one_leaf ["b"] ⟨"a"⟩ h⟩

/-- C22: for every tree that satisfies the BST invariant, however it was built, every
target and every prior value of the output parameter, `retrieve` reports found if and
only if the tree holds a payload equal to the target. Trees built by `insert` calls
satisfy the invariant, and so does the tree `arrayToBSTree` builds, in any
destination, from a buffer of 100 slots whose first k slots (2 <= k <= 100) hold a
strictly ascending run of payloads. -/
theorem C22_retrieve_finds_exactly_the_payloads_of_a_bst (t : BinTree) (target : NodeData)
    (ret : Option NodeData) (h : t.root.isBST = true) :
    ((t.retrieve target ret).1 = true ↔
      ∃ x ∈ t.root.inorderSeq, NodeData.eq target x = true) ∧
    (∀ xs : List String, (buildTree BinTree.empty xs).root.isBST = true) ∧
    (∀ (arr : Buffer) (k : Nat) (dest : BinTree) (cout : String),
      arr.length = ARRAYSIZE → 2 ≤ k → k ≤ 100 →
      (∀ j, j < k → arr.getD j none ≠ none) → (∀ j, k ≤ j → arr.getD j none = none) →
      (∀ i j : Nat, i < j → j < k →
        NodeData.lt (slotPayload arr i) (slotPayload arr j) = true) →
      ∃ t' : BinTree, dest.arrayToBSTree arr cout = some (t', initArray, cout) ∧
        t'.root.isBST = true) := by
  refine ⟨?_, fun xs => buildTree_isBST _ _ rfl, ?_⟩
  · have hex : (∃ x ∈ t.root.inorderSeq, NodeData.eq target x = true) ↔
        target ∈ t.root.inorderSeq := by
      constructor
      · rintro ⟨x, hx, he⟩
        rw [(NodeData.eq_iff _ _).1 he]
        exact hx
      · intro hm
        exact ⟨target, hm, NodeData.eq_self target⟩
    rw [hex]
    unfold BinTree.retrieve BinTree.isEmpty
    cases hroot : t.root with
    | nil => simp [Node.inorderSeq]
    | node data left right =>
      rw [hroot] at h
      by_cases hmem : target ∈ (Node.node data left right).inorderSeq
      · simp [Node.retrieve_of_mem _ target ret h hmem, hmem]
      · simp [Node.retrieve_of_not_mem _ target ret hmem, hmem]
  · intro arr k dest cout hlen hk2 hk hocc hemp hasc
    refine ⟨_, BinTree.arrayToBSTree_of_run arr k hlen hk2 hk hocc hemp dest cout, ?_⟩
    apply Node.isBST_build _ _ _ _ rfl
    intro i j hi hij hj
    have h1 := hasc i.toNat j.toNat (by omega) (by omega)
    rw [Int.toNat_of_nonneg hi, Int.toNat_of_nonneg (by omega)] at h1
    exact h1

/-- Witness for C22: the BST with root "m" and left child "e", searched for "e". -/
theorem C22_retrieve_finds_exactly_the_payloads_of_a_bst_witness :
    (⟨Node.node ⟨"m"⟩ (Node.node ⟨"e"⟩ Node.nil Node.nil) Node.nil⟩ : BinTree).root.isBST = true ∧
    (((⟨Node.node ⟨"m"⟩ (Node.node ⟨"e"⟩ Node.nil Node.nil) Node.nil⟩ : BinTree).retrieve
        ⟨"e"⟩ none).1 = true ↔
      ∃ x ∈ (Node.node ⟨"m"⟩ (Node.node ⟨"e"⟩ Node.nil Node.nil) Node.nil).inorderSeq,
        NodeData.eq ⟨"e"⟩ x = true) :=
  have h : (⟨Node.node ⟨"m"⟩ (Node.node ⟨"e"⟩ Node.nil Node.nil) Node.nil⟩ :
      BinTree).root.isBST = true := by
    simp +decide [Node.isBST, Node.inorderSeq, NodeData.lt, NodeData.gt]
  ⟨h, (C22_retrieve_finds_exactly_the_payloads_of_a_bst _ ⟨"e"⟩ none h).1⟩

/-- C23: `retrieve` does not fall back to a full scan: `arrayToBSTree` on the buffer
holding "c", "b", "a", which is not sorted, builds the tree with root "b", left child
"c" and right child "a"; it violates the BST invariant, it holds the payload "a", and
`retrieve` reports "a" as not found whatever the output parameter held. -/
theorem C23_retrieve_misses_a_payload_of_a_non_bst :
    BinTree.empty.arrayToBSTree (runBuffer [⟨"c"⟩, ⟨"b"⟩, ⟨"a"⟩]) "" =
      some (⟨Node.node ⟨"b"⟩ (Node.node ⟨"c"⟩ Node.nil Node.nil)
        (Node.node ⟨"a"⟩ Node.nil Node.nil)⟩, initArray, "") ∧
    (Node.node ⟨"b"⟩ (Node.node ⟨"c"⟩ Node.nil Node.nil)
      (Node.node ⟨"a"⟩ Node.nil Node.nil)).isBST = false ∧
    (⟨"a"⟩ : NodeData) ∈ (Node.node ⟨"b"⟩ (Node.node ⟨"c"⟩ Node.nil Node.nil)
      (Node.node ⟨"a"⟩ Node.nil Node.nil)).inorderSeq ∧
    ∀ ret : Option NodeData,
      ((⟨Node.node ⟨"b"⟩ (Node.node ⟨"c"⟩ Node.nil Node.nil)
        (Node.node ⟨"a"⟩ Node.nil Node.nil)⟩ : BinTree).retrieve ⟨"a"⟩ ret).1 = false := by
  have h1 : (runBuffer [⟨"c"⟩, ⟨"b"⟩, ⟨"a"⟩]).length = ARRAYSIZE :=
    length_runBuffer _ (by decide)
  have h2 : ∀ j, j < 3 → (runBuffer [⟨"c"⟩, ⟨"b"⟩, ⟨"a"⟩]).getD j none ≠ none := by
    intro j hj
    rw [getD_runBuffer, if_pos (by simpa using hj)]
    exact Option.some_ne_none _
  have h3 : ∀ j, 3 ≤ j → (runBuffer [⟨"c"⟩, ⟨"b"⟩, ⟨"a"⟩]).getD j none = none := by
    intro j hj
    rw [getD_runBuffer, if_neg (by simpa using hj)]
  have h4 : Node.build (slotPayload (runBuffer [⟨"c"⟩, ⟨"b"⟩, ⟨"a"⟩])) 0 (((3 : Nat) : Int) - 1) =
      Node.node ⟨"b"⟩ (Node.node ⟨"c"⟩ Node.nil Node.nil)
        (Node.node ⟨"a"⟩ Node.nil Node.nil) := by
    rw [Node.build_of_le _ 0 _ (by decide)]
    norm_num
    rw [Node.build_of_le _ 0 0 (by decide), Node.build_of_le _ 2 2 (by decide)]
    norm_num
    rw [Node.build_of_lt _ 0 (-1) (by decide), Node.build_of_lt _ 1 0 (by decide),
      Node.build_of_lt _ 2 1 (by decide), Node.build_of_lt _ 3 2 (by decide)]
    simp +decide [slotPayload, runBuffer, ARRAYSIZE]
  refine ⟨?_, ?_, ?_, ?_⟩
  · rw [BinTree.arrayToBSTree_of_run _ 3 h1 (by decide) (by decide) h2 h3, h4]
  · simp +decide [Node.isBST, Node.inorderSeq, NodeData.lt, NodeData.gt]
  · simp [Node.inorderSeq]
  · intro ret
    simp +decide [BinTree.retrieve, BinTree.isEmpty, Node.retrieve, NodeData.eq, NodeData.lt]

/-- C24: the recursive `getDepth` has a path with no return value: called on a
non-empty node whose payload does not equal the target, when neither the call on the
left subtree nor the call on the right subtree returns a depth above 0, control
reaches the end of the function body without a return statement. -/
theorem C24_getDepth_has_a_path_without_return (data : NodeData) (left right : Node)
    (target : NodeData) (hne : NodeData.eq target data = false)
    (hl : ∀ d : Int, left.getDepth target = some d → d ≤ 0)
    (hr : ∀ d : Int, right.getDepth target = some d → d ≤ 0) :
    Node.getDepth (Node.node data left right) target = none := by
  rw [Node.getDepth]
  simp only [hne, Bool.false_eq_true, if_false]
  cases el : left.getDepth target with
  | none => rfl
  | some dl =>
    have h1 : ¬ dl > 0 := by
      have := hl dl el
      omega
    simp only [h1, if_false]
    cases er : right.getDepth target with
    | none => rfl
    | some dr =>
      have h2 : ¬ dr > 0 := by
        have := hr dr er
        omega
      simp only [h2, if_false]

/-- Witness for C24: the single-node tree holding "m" and the target "x". -/
theorem C24_getDepth_has_a_path_without_return_witness :
    NodeData.eq ⟨"x"⟩ ⟨"m"⟩ = false ∧
    (∀ d : Int, Node.nil.getDepth ⟨"x"⟩ = some d → d ≤ 0) ∧
    Node.getDepth (Node.node ⟨"m"⟩ Node.nil Node.nil) ⟨"x"⟩ = none :=
  have h1 : NodeData.eq ⟨"x"⟩ ⟨"m"⟩ = false := by decide
  have h2 : ∀ d : Int, Node.nil.getDepth ⟨"x"⟩ = some d → d ≤ 0 := by
    intro d hd
    simp only [Node.getDepth, Option.some.injEq] at hd
    omega
  ⟨h1, h2, C24_getDepth_has_a_path_without_return ⟨"m"⟩ Node.nil Node.nil ⟨"x"⟩ h1 h2 h2⟩

/-- C25 (as amended): for every tree with n <= 100 nodes and every buffer of 100
slots, `bstreeToArray` writes only slots 0..n-1: every slot at index n or above holds
after the call exactly what it held before. So, when every slot from n to some m
(n <= m, 1 <= m <= 99) holds a payload, the payloads left over in slots n..m are all
picked up by the `arrayToBSTree` that follows on the same tree: each is in the tree
built and its slot is cleared. -/
theorem C25_bstreeToArray_leaves_later_slots (t : BinTree) (arr : Buffer)
    (hlen : arr.length = ARRAYSIZE) (hn : t.root.size ≤ 100) :
    (∀ j, t.root.size ≤ j → (t.bstreeToArray arr).2.getD j none = arr.getD j none) ∧
    (t.bstreeToArray arr).2.drop t.root.size = arr.drop t.root.size ∧
    (∀ (m : Nat) (cout : String), t.root.size ≤ m → 1 ≤ m → m < 100 →
      (∀ j, t.root.size ≤ j → j ≤ m → arr.getD j none ≠ none) →
      ∃ (t' : BinTree) (arr' : Buffer),
        (t.bstreeToArray arr).1.arrayToBSTree (t.bstreeToArray arr).2 cout =
          some (t', arr', cout) ∧
        ∀ j, t.root.size ≤ j → j ≤ m →
          arr.getD j none = some (slotPayload arr j) ∧
          slotPayload arr j ∈ t'.root.inorderSeq ∧
          arr'.getD j none = none) := by
  have hsz : t.root.size ≤ arr.length := by
    rw [hlen]
    exact hn
  have hget := BinTree.getD_bstreeToArray t arr hsz
  refine ⟨?_, ?_, ?_⟩
  · intro j hj
    rw [hget, if_neg (by omega)]
  · rw [BinTree.bstreeToArray_eq t arr hsz]
    rw [List.drop_append_of_le_length (by simp [Node.length_inorderSeq])]
    rw [List.drop_of_length_le (by simp [Node.length_inorderSeq])]
    rfl
  · intro m cout _ hm1 hm hocc
    obtain ⟨t', arr', h1, h2⟩ := BinTree.arrayToBSTree_picks_up_all (t.bstreeToArray arr).2 m
      hm1 hm (fun j hj => by
        rw [hget]
        by_cases c : j < t.root.size
        · rw [if_pos c]
          exact Option.some_ne_none _
        · rw [if_neg c]
          exact hocc j (by omega) hj) (t.bstreeToArray arr).1 cout
    refine ⟨t', arr', h1, ?_⟩
    intro j hj1 hj2
    have hslot : slotPayload (t.bstreeToArray arr).2 j = slotPayload arr j := by
      unfold slotPayload
      simp only [Int.toNat_ofNat]
      rw [hget, if_neg (by omega)]
    refine ⟨?_, ?_, (h2 j hj2).2⟩
    · have := hocc j hj1 hj2
      unfold slotPayload
      simp only [Int.toNat_ofNat]
      cases h : arr.getD j none with
      | none => exact absurd h this
      | some d => rfl
    · rw [← hslot]
      exact (h2 j hj2).1

/-- Witness for C25: the tree "a" with right child "b" emptied into a buffer whose
slot 2 still holds "z": slot 2 is untouched by `bstreeToArray`, and the conversion
back picks "z" up and clears slot 2. -/
theorem C25_bstreeToArray_leaves_later_slots_witness :
    (List.replicate 2 none ++ some ⟨"z"⟩ :: List.replicate 97 none : Buffer).length =
      ARRAYSIZE ∧
    (⟨Node.node ⟨"a"⟩ Node.nil (Node.node ⟨"b"⟩ Node.nil Node.nil)⟩ : BinTree).root.size ≤ 100 ∧
    (∀ j, 2 ≤ j → j ≤ 2 →
      (List.replicate 2 none ++ some ⟨"z"⟩ :: List.replicate 97 none : Buffer).getD j none ≠
        none) ∧
    ((⟨Node.node ⟨"a"⟩ Node.nil (Node.node ⟨"b"⟩ Node.nil Node.nil)⟩ : BinTree).bstreeToArray
      (List.replicate 2 none ++ some ⟨"z"⟩ :: List.replicate 97 none)).2.drop 2 =
      (List.replicate 2 none ++ some ⟨"z"⟩ :: List.replicate 97 none : Buffer).drop 2 ∧
    ∃ (t' : BinTree) (arr' : Buffer),
      ((⟨Node.node ⟨"a"⟩ Node.nil (Node.node ⟨"b"⟩ Node.nil Node.nil)⟩ :
          BinTree).bstreeToArray
        (List.replicate 2 none ++ some ⟨"z"⟩ :: List.replicate 97 none)).1.arrayToBSTree
        ((⟨Node.node ⟨"a"⟩ Node.nil (Node.node ⟨"b"⟩ Node.nil Node.nil)⟩ :
          BinTree).bstreeToArray
          (List.replicate 2 none ++ some ⟨"z"⟩ :: List.replicate 97 none)).2 "" =
        some (t', arr', "") ∧
      (⟨"z"⟩ : NodeData) ∈ t'.root.inorderSeq ∧ arr'.getD 2 none = none := by
  have h1 : (List.replicate 2 none ++ some ⟨"z"⟩ :: List.replicate 97 none : Buffer).length =
      ARRAYSIZE := by decide
  have h2 : (⟨Node.node ⟨"a"⟩ Node.nil (Node.node ⟨"b"⟩ Node.nil Node.nil)⟩ :
      BinTree).root.size ≤ 100 := by decide
  have h3 : ∀ j, 2 ≤ j → j ≤ 2 →
      (List.replicate 2 none ++ some ⟨"z"⟩ :: List.replicate 97 none : Buffer).getD j none ≠
        none := by
    intro j hj1 hj2
    have : j = 2 := by omega
    subst this
    decide
  have h := C25_bstreeToArray_leaves_later_slots
    (⟨Node.node ⟨"a"⟩ Node.nil (Node.node ⟨"b"⟩ Node.nil Node.nil)⟩ : BinTree)
    (List.replicate 2 none ++ some ⟨"z"⟩ :: List.replicate 97 none : Buffer) h1 h2
  obtain ⟨t', arr', h4, h5⟩ := h.2.2 2 "" (by decide) (by decide) (by decide) h3
  have h6 := h5 2 (by decide) (by decide)
  have hz : slotPayload
      (List.replicate 2 none ++ some ⟨"z"⟩ :: List.replicate 97 none : Buffer) ((2 : Nat) : Int) =
      ⟨"z"⟩ := by decide
  rw [hz] at h6
  exact ⟨h1, h2, h3, h.2.1, t', arr', h4, h6.2.1, h6.2.2⟩

/-- Counterexample to C25 as stated: the tree "a" with right child "b" is emptied
into a buffer whose slot 5 still holds "z" while slots 2..4 are empty; the
`arrayToBSTree` that follows stops at the empty slot 2, so "z" is not in the tree it
builds and is still in slot 5. And the empty tree emptied into a buffer that holds
"z" in slot 0 only leaves "z" there, and the `arrayToBSTree` that follows gives up
with the empty-array notice: the tree stays empty and "z" stays in slot 0. -/
theorem C25_leftover_beyond_an_empty_slot_is_not_picked_up :
    ((⟨Node.node ⟨"a"⟩ Node.nil (Node.node ⟨"b"⟩ Node.nil Node.nil)⟩ : BinTree).bstreeToArray
        (List.replicate 5 none ++ some ⟨"z"⟩ :: List.replicate 94 none) =
      (BinTree.empty, some ⟨"a"⟩ :: some ⟨"b"⟩ :: List.replicate 3 none ++
        some ⟨"z"⟩ :: List.replicate 94 none) ∧
    ∃ (t' : BinTree) (arr' : Buffer),
      BinTree.empty.arrayToBSTree (some ⟨"a"⟩ :: some ⟨"b"⟩ :: List.replicate 3 none ++
        some ⟨"z"⟩ :: List.replicate 94 none) "" = some (t', arr', "") ∧
      t'.root.inorderSeq = [⟨"a"⟩, ⟨"b"⟩] ∧
      (⟨"z"⟩ : NodeData) ∉ t'.root.inorderSeq ∧
      arr'.getD 5 none = some ⟨"z"⟩) ∧
    (BinTree.empty.bstreeToArray (some ⟨"z"⟩ :: List.replicate 99 none) =
      (BinTree.empty, some ⟨"z"⟩ :: List.replicate 99 none) ∧
    BinTree.empty.arrayToBSTree (some ⟨"z"⟩ :: List.replicate 99 none) "" =
      some (BinTree.empty, some ⟨"z"⟩ :: List.replicate 99 none, BinTree.arrayEmptyNotice) ∧
    (⟨"z"⟩ : NodeData) ∉ BinTree.empty.root.inorderSeq) := by
  refine ⟨⟨rfl, ?_⟩, rfl, ?_, ?_⟩
  · obtain ⟨arr', h1, _, hget, hseq⟩ := BinTree.arrayToBSTree_prefix
      (some ⟨"a"⟩ :: some ⟨"b"⟩ :: List.replicate 3 none ++
        some ⟨"z"⟩ :: List.replicate 94 none) 2 (by decide) (by decide)
      (fun j hj => by
        have : j = 0 ∨ j = 1 := by omega
        rcases this with rfl | rfl <;> decide)
      (Or.inr (by decide)) BinTree.empty ""
    have hs : (Node.build (slotPayload (some ⟨"a"⟩ :: some ⟨"b"⟩ :: List.replicate 3 none ++
        some ⟨"z"⟩ :: List.replicate 94 none)) 0 (((2 : Nat) : Int) - 1)).inorderSeq =
        [⟨"a"⟩, ⟨"b"⟩] := by
      rw [hseq]
      decide
    refine ⟨_, arr', h1, hs, ?_, ?_⟩
    · rw [hs]
      decide
    · rw [hget]
      decide
  · simp [BinTree.arrayToBSTree, Node.findHi, Node.findHiLoop]
  · simp [BinTree.empty, Node.inorderSeq]

/-- C26 (evaluation at the failing input): `operator<<` handed a sink other than
`cout` (here the sink at address 1) and an empty tree writes nothing to that sink and
appends the empty-tree notice to `cout`; for a non-empty tree it writes the traversal
to the sink it was handed and leaves `cout` alone. -/
theorem C26_empty_tree_notice_goes_to_cout (sinks : Sinks) :
    (BinTree.operatorShl sinks 1 BinTree.empty) 1 = sinks 1 ∧
    (BinTree.operatorShl sinks 1 BinTree.empty) coutAddr =
      sinks coutAddr ++ BinTree.treeEmptyNotice ∧
    (BinTree.operatorShl sinks 1 ⟨Node.node ⟨"m"⟩ Node.nil Node.nil⟩) 1 =
      sinks 1 ++ "m " ++ "\n" ∧
    (BinTree.operatorShl sinks 1 ⟨Node.node ⟨"m"⟩ Node.nil Node.nil⟩) coutAddr =
      sinks coutAddr := by
  refine ⟨?_, ?_, ?_, ?_⟩
  · simp [BinTree.operatorShl, BinTree.isEmpty, BinTree.empty, coutAddr, Function.update]
  · simp [BinTree.operatorShl, BinTree.isEmpty, BinTree.empty, coutAddr, Function.update]
  · simp [BinTree.operatorShl, BinTree.isEmpty, BinTree.inorder, Node.inorderHelper,
      NodeData.print, Function.update, String.append_assoc]
  · simp [BinTree.operatorShl, BinTree.isEmpty, coutAddr, Function.update]

/-- C27 (as amended): for every non-empty tree, `displaySideways` appends to `cout`
exactly one line per node, in the order right subtree, node, left subtree, so that
the payloads of the lines are the in-order sequence reversed; the line of a node at
depth d, the root being at depth 0, is indented by d + 2 steps of four blanks, that
is by 4 * (d + 2) blanks: 8 for the root and 4 more per level. -/
theorem C27_displaySideways_lines (data : NodeData) (left right : Node) (cout : String) :
    (⟨Node.node data left right⟩ : BinTree).displaySideways cout =
      cout ++ renderLines (fun d => d + 2) (sidewaysLines (Node.node data left right) 0) ∧
    (sidewaysLines (Node.node data left right) 0).length = (Node.node data left right).size ∧
    (sidewaysLines (Node.node data left right) 0).map Prod.snd =
      (Node.node data left right).inorderSeq.reverse ∧
    sidewaysLines (Node.node data left right) 0 =
      sidewaysLines right 1 ++ (0, data) :: sidewaysLines left 1 ∧
    (∀ line ∈ sidewaysLines (Node.node data left right) 0,
      ∃ p : List Bool, (Node.node data left right).payloadAt p = some line.2 ∧
        line.1 = p.length) ∧
    (∀ k : Nat, (indentText k).data = List.replicate (4 * k) ' ') := by
  refine ⟨?_, Node.length_sidewaysLines _ 0, Node.sidewaysLines_payloads _ 0, rfl, ?_,
    indentText_data⟩
  · simp only [BinTree.displaySideways, BinTree.isEmpty, Bool.false_eq_true, if_false]
    exact Node.sideways_eq _ 0 cout
  · intro line hline
    obtain ⟨p, hp1, hp2⟩ := Node.sidewaysLines_depth _ 0 line hline
    exact ⟨p, hp1, by omega⟩

/-- Counterexample to C27 as stated: for the one-node tree holding "m" the line of
the root, which is at level 0, is indented by 8 blanks, not by 4 * 0 = 0 blanks. -/
theorem C27_root_line_is_indented_by_eight_blanks :
    (⟨Node.node ⟨"m"⟩ Node.nil Node.nil⟩ : BinTree).displaySideways "" = "        m\n" ∧
    (⟨Node.node ⟨"m"⟩ Node.nil Node.nil⟩ : BinTree).displaySideways "" ≠
      renderLines (fun d => d) (sidewaysLines (Node.node ⟨"m"⟩ Node.nil Node.nil) 0) ∧
    renderLines (fun d => d) (sidewaysLines (Node.node ⟨"m"⟩ Node.nil Node.nil) 0) = "m\n" := by
  refine ⟨?_, ?_, ?_⟩ <;> decide
